import Mathlib

/-!
Verification of the TTS core of the EPUB-to-Audiobook pipeline.

This development shallowly embeds the segmenter (`text_segmenter.py`), the
content-addressed cache key (`audio_cache.py`), the synthesis orchestrator
(`tts_pipeline.py`) and the cache short-circuit of the MLX engine
(`tts_engine.py`).  Strings are modelled as `List Char` (Python `str` is a
sequence of code points), Python `int` as `Nat`/`Int`, and `float`
configuration values as `ℚ` (an exact-decimal idealisation of the floats the
program manipulates).  Stateful loops become explicit state passing; the
recursive retry/split state machine is step-indexed by an explicit fuel
argument, and its termination is proved as a theorem.
-/

set_option linter.unusedVariables false

/-! ## String model -/

/-- Python `str` as a list of code points. -/
abbrev Str := List Char

/-- Python whitespace (`\s`, `str.strip`, `str.split`), ASCII fragment:
space, tab, newline, vertical tab, form feed, carriage return. -/
def isWs (c : Char) : Bool :=
  c = ' ' || c = '\t' || c = '\n' || c = '\x0b' || c = '\x0c' || c = '\r'

/-- Drop a maximal run of characters satisfying `p` from the end. -/
def dropTrail (p : Char → Bool) (s : Str) : Str :=
  (s.reverse.dropWhile p).reverse

/-- Python `str.strip()`. -/
def pyStrip (s : Str) : Str := dropTrail isWs (s.dropWhile isWs)

/-- One step of Python `str.split()` (split on whitespace runs, no empties):
`acc` holds the current word reversed. -/
def pyWordsGo : Str → Str → List Str
  | [], acc => if acc = [] then [] else [acc.reverse]
  | c :: rest, acc =>
    if isWs c then
      if acc = [] then pyWordsGo rest [] else acc.reverse :: pyWordsGo rest []
    else pyWordsGo rest (c :: acc)

/-- Python `str.split()` with no argument. -/
def pyWords (s : Str) : List Str := pyWordsGo s []

/-- `_WHITESPACE_RE.sub(" ", s)`: replace each maximal whitespace run by a
single space.  The scan keeps one lookahead character so that the recursion
is structural. -/
def collapseWs : Str → Str
  | [] => []
  | [c] => if isWs c then [' '] else [c]
  | c :: d :: rest =>
    if isWs c && isWs d then collapseWs (d :: rest)
    else (if isWs c then ' ' else c) :: collapseWs (d :: rest)

/-- `re.split(r"\n{2,}", s)`: split at each maximal run of two or more
newlines.  `acc` is the current part reversed; `pend` counts newlines seen
but not yet classified (a run of length one stays inside the part). -/
def paraGo : Str → Str → Nat → List Str
  | [], acc, pend =>
    if 2 ≤ pend then [acc.reverse, []] else [(List.replicate pend '\n' ++ acc).reverse]
  | c :: rest, acc, pend =>
    if c = '\n' then paraGo rest acc (pend + 1)
    else if 2 ≤ pend then acc.reverse :: paraGo rest [c] 0
    else paraGo rest (c :: (List.replicate pend '\n' ++ acc)) 0

/-- `_PARAGRAPH_SPLIT_RE.split(text)`. -/
def paraSplit (s : Str) : List Str := paraGo s [] 0

/-- Slices `s[0:size], s[size:2*size], ...` (used by `_split_long_word`).
The fuel argument makes the recursion structural; `s.length` steps always
suffice when `1 ≤ size` (the only way the code calls it). -/
def chunksOfGo (size : Nat) : Nat → Str → List Str
  | _, [] => []
  | 0, s => [s]
  | fuel + 1, s => s.take size :: chunksOfGo size fuel (s.drop size)

/-- `[word[i : i + size] for i in range(0, len(word), size)]`. -/
def chunksOf (size : Nat) (s : Str) : List Str := chunksOfGo size s.length s

/-! ## Sentence splitting (`_split_sentences`)

`re.split` on the capturing pattern `([.!?]+["')\]]*)` alternates text parts
and separator parts; the Python loop glues each separator onto the text
before it and emits the stripped concatenation.  The scanner below does the
same in one pass: `mode = 0` while accumulating ordinary text, `mode = 1`
inside a maximal `[.!?]+` run, `mode = 2` inside the following maximal
closing-character run.  A sentence is emitted when the terminator run ends. -/

/-- Sentence-terminating punctuation of `_SENTENCE_END_RE` (`[.!?]`). -/
def isSentPunct (c : Char) : Bool := c = '.' || c = '!' || c = '?'

/-- Closing quote/paren/bracket characters (`["')\]]`). -/
def isCloser (c : Char) : Bool := c = '"' || c = '\'' || c = ')' || c = ']'

def sentGo : Str → Str → Nat → List Str
  | [], acc, _ =>
    match pyStrip acc.reverse with
    | [] => []
    | s => [s]
  | c :: rest, acc, mode =>
    if mode = 0 then
      if isSentPunct c then sentGo rest (c :: acc) 1 else sentGo rest (c :: acc) 0
    else if mode = 1 then
      if isSentPunct c then sentGo rest (c :: acc) 1
      else if isCloser c then sentGo rest (c :: acc) 2
      else
        match pyStrip acc.reverse with
        | [] => sentGo rest [c] 0
        | s => s :: sentGo rest [c] 0
    else
      if isCloser c then sentGo rest (c :: acc) 2
      else
        match pyStrip acc.reverse with
        | [] => sentGo rest [c] (if isSentPunct c then 1 else 0)
        | s => s :: sentGo rest [c] (if isSentPunct c then 1 else 0)

/-- `_split_sentences(text)`. -/
def splitSentences (s : Str) : List Str := sentGo s [] 0

/-! ## Terminal punctuation -/

/-- The `[.!?;:]` class of `_TERMINAL_PUNCT_RE`. -/
def isTermPunct (c : Char) : Bool := c = '.' || c = '!' || c = '?' || c = ';' || c = ':'

/-- `_TERMINAL_PUNCT_RE.search(s)` succeeds: `s` ends with at least one of
`.!?;:` followed by zero or more closing quote/paren/bracket characters. -/
def endsTerminal (s : Str) : Bool :=
  match (dropTrail isCloser s).getLast? with
  | some c => isTermPunct c
  | none => false

/-- `text_segmenter._ensure_terminal_punctuation`. -/
def ensureTerminalSeg (s : Str) : Str :=
  if endsTerminal s then s else s ++ ['.']

/-! ## The segmenter (`BasicTextSegmenter`) -/

/-- A produced segment (`interfaces.Segment`). -/
structure Segment where
  index : Nat
  text : Str
  deriving DecidableEq, Repr

/-- The four configuration fields of `BasicTextSegmenter`.  The validated
configurations (see `postInitOk` below for `__post_init__` over raw ints)
always have non-negative fields, so `Nat` is used here. -/
structure SegCfg where
  max_chars : Nat := 1000
  min_chars : Nat := 200
  hard_max_chars : Option Nat := none
  ensure_terminal_punctuation : Bool := true
  deriving DecidableEq, Repr

/-- `BasicTextSegmenter._hard_max` (`int(max_chars * 1.25)` is exactly
`max_chars * 5 / 4` rounded toward zero for the non-negative values the
validator admits). -/
def SegCfg.hardMax (cfg : SegCfg) : Nat :=
  match cfg.hard_max_chars with
  | none => cfg.max_chars * 5 / 4
  | some h => max cfg.max_chars h

/-- `BasicTextSegmenter._max_limit`. -/
def SegCfg.maxLimit (cfg : SegCfg) : Nat :=
  if cfg.ensure_terminal_punctuation then max 1 (cfg.max_chars - 1) else cfg.max_chars

/-- `BasicTextSegmenter._hard_limit`. -/
def SegCfg.hardLimit (cfg : SegCfg) : Nat :=
  if cfg.ensure_terminal_punctuation then max 1 (cfg.hardMax - 1) else cfg.hardMax

/-- The constraints `__post_init__` enforces, phrased over the `Nat` model
(`min_chars ≥ 0` is automatic). -/
def SegCfg.Valid (cfg : SegCfg) : Prop :=
  0 < cfg.max_chars ∧ cfg.min_chars ≤ cfg.max_chars ∧
    (cfg.ensure_terminal_punctuation = true → 2 ≤ cfg.max_chars)

instance (cfg : SegCfg) : Decidable cfg.Valid := by
  unfold SegCfg.Valid; infer_instance

/-- The mutable state of `segment`: emitted segments, the accumulator
`current`, and the running index. -/
structure SegState where
  segments : List Segment
  current : Str
  index : Nat
  deriving DecidableEq, Repr

/-- The inner `flush()` closure of `segment`. -/
def SegCfg.flush (cfg : SegCfg) (st : SegState) : SegState :=
  let chunk := pyStrip st.current
  if chunk = [] then { st with current := [] }
  else
    let chunk := if cfg.ensure_terminal_punctuation then ensureTerminalSeg chunk else chunk
    { segments := st.segments ++ [⟨st.index, chunk⟩]
      current := []
      index := st.index + 1 }

/-- The inner `append_piece(piece)` closure of `segment`. -/
def SegCfg.appendPiece (cfg : SegCfg) (st : SegState) (piece : Str) : SegState :=
  let piece := pyStrip piece
  if piece = [] then st
  else if st.current = [] then { st with current := piece }
  else
    let candidate := st.current ++ ' ' :: piece
    if candidate.length ≤ cfg.maxLimit then { st with current := candidate }
    else if st.current.length < cfg.min_chars ∧ candidate.length ≤ cfg.hardLimit then
      { st with current := candidate }
    else
      let st := cfg.flush st
      { st with current := piece }

/-- `BasicTextSegmenter._split_long_word`. -/
def SegCfg.splitLongWord (cfg : SegCfg) (word : Str) : List Str :=
  chunksOf cfg.hardLimit word

/-- One iteration of the word loop of `_split_long_sentence`; the state is
`(pieces, current)`. -/
def SegCfg.longSentStep (cfg : SegCfg) (acc : List Str × Str) (word : Str) : List Str × Str :=
  let (pieces, current) := acc
  if current = [] then (pieces, word)
  else
    let candidate := current ++ ' ' :: word
    if candidate.length ≤ cfg.hardLimit then (pieces, candidate)
    else
      let pieces := pieces ++ [current]
      if cfg.hardLimit < word.length then (pieces ++ cfg.splitLongWord word, [])
      else (pieces, word)

/-- `BasicTextSegmenter._split_long_sentence`. -/
def SegCfg.splitLongSentence (cfg : SegCfg) (sentence : Str) : List Str :=
  let (pieces, current) := (pyWords sentence).foldl cfg.longSentStep ([], [])
  if current = [] then pieces else pieces ++ [current]

/-- The sentence loop body of `segment`. -/
def SegCfg.processSentence (cfg : SegCfg) (st : SegState) (sentence : Str) : SegState :=
  if cfg.hardLimit < sentence.length then
    (cfg.splitLongSentence sentence).foldl cfg.appendPiece st
  else cfg.appendPiece st sentence

/-- The paragraph loop body of `segment` (including the soft paragraph-end
flush once `min_chars` is met). -/
def SegCfg.processParagraph (cfg : SegCfg) (st : SegState) (paragraph : Str) : SegState :=
  let st := (splitSentences paragraph).foldl cfg.processSentence st
  if st.current ≠ [] ∧ cfg.min_chars ≤ st.current.length then cfg.flush st else st

/-- `BasicTextSegmenter._split_paragraphs`. -/
def splitParagraphs (text : Str) : List Str :=
  (paraSplit text).filterMap fun p =>
    let q := collapseWs (pyStrip p)
    if q = [] then none else some q

/-- `BasicTextSegmenter.segment`. -/
def SegCfg.segment (cfg : SegCfg) (text : Str) : List Segment :=
  if text = [] then []
  else
    let st := (splitParagraphs text).foldl cfg.processParagraph ⟨[], [], 0⟩
    let st := if st.current ≠ [] then cfg.flush st else st
    st.segments

/-! ## The synthesis orchestrator (`tts_pipeline.py`)

The engine capability (`TtsEngine.synthesize`) is injected.  A deterministic
stateful engine is modelled as a function of the invocation index (how many
times `synthesize` has been called before) and the text; the orchestrator
threads the trace of texts passed to the engine, whose length is that index.
The per-call `engine_config` (speed, language, reference audio, the
precomputed deterministic `output_path`) does not influence the
orchestrator's control flow and is left out of the engine's input; the path
computation itself (`_resolve_output_path`) is modelled separately below.
The recursion of `_synthesize_with_retry` / `_split_and_synthesize` is
step-indexed by fuel (`none` = out of fuel); termination is the statement
that some fuel returns `some`. -/

/-- `interfaces.AudioChunk`. -/
structure AudioChunk where
  index : Nat
  path : Str
  duration_ms : Option Int := none
  deriving DecidableEq, Repr

/-- The outcome of one `TtsEngine.synthesize` call: a chunk, or one of the
typed errors of the taxonomy (`TtsInputError`, `TtsSizeError`,
`TtsTransientError`, any other `TtsError` such as `TtsModelError`). -/
inductive EngineResult where
  | ok (chunk : AudioChunk)
  | inputError
  | sizeError
  | transientError
  | fatalError
  deriving DecidableEq, Repr

/-- A deterministic engine: invocation index and text to outcome. -/
abbrev Engine := Nat → Str → EngineResult

/-- `TtsSynthesisSettings` (the fields the orchestrator's control flow and
the cache key read; `backoff_base`/`backoff_jitter` feed only the sleep
delay, and `ref_audio` is only forwarded inside `engine_config`). -/
structure SynthSettings where
  model_id : Str
  max_chars : Nat
  min_chars : Nat
  hard_max_chars : Option Nat
  max_retries : Nat
  backoff_base : ℚ
  backoff_jitter : ℚ
  sample_rate : Int
  channels : Int
  speed : ℚ
  lang_code : Option Str
  ref_text : Option Str
  ref_audio_id : Option Str
  deriving DecidableEq

/-- The segmenter `synthesize_text`/`_split_text` construct from the
settings (`ensure_terminal_punctuation` is left at its default `True`). -/
def SynthSettings.segCfg (s : SynthSettings) : SegCfg :=
  ⟨s.max_chars, s.min_chars, s.hard_max_chars, true⟩

/-- `tts_pipeline._ensure_terminal_punctuation` (note: unlike the
segmenter's, it accepts a trailing closer alone as terminal). -/
def ensureTerminalPipe (s : Str) : Str :=
  match s.getLast? with
  | some c => if isTermPunct c || isCloser c then s else s ++ ['.']
  | none => s ++ ['.']

/-- One step of the `while current` loop of `_hard_split`; fuel is the
length of the remaining text (enough when `1 ≤ maxChars`, the validated
case — with `max_chars = 0` the Python loop would not terminate, and the
fuel just cuts the unreachable recursion off). -/
def hardSplitGo (maxChars : Nat) : Nat → Str → List Str
  | _, [] => []
  | 0, _ => []
  | fuel + 1, current =>
    let piece := pyStrip (current.take maxChars)
    let rest := pyStrip (current.drop maxChars)
    if piece = [] then hardSplitGo maxChars fuel rest
    else ensureTerminalPipe piece :: hardSplitGo maxChars fuel rest

/-- `tts_pipeline._hard_split`. -/
def hardSplit (text : Str) (maxChars : Nat) : List Str :=
  let current := pyStrip text
  hardSplitGo maxChars current.length current

/-- `tts_pipeline._split_text`. -/
def splitText (text : Str) (s : SynthSettings) : List Str :=
  let segments := (s.segCfg.segment text).map Segment.text
  if 1 < segments.length then segments
  else hardSplit text s.max_chars

/-- `tts_pipeline._backoff_delay`. -/
def backoffDelay (attempt : Nat) (base jitter : ℚ) : ℚ :=
  let delay := base * 2 ^ attempt
  if jitter ≤ 0 then delay else delay + delay * jitter

/-- Errors the orchestrator can propagate to its caller. -/
inductive PipeError where
  | transient
  | size (msg : String)
  | fatal
  deriving DecidableEq, Repr

/-- Result of a (sub)run: the trace of texts passed to the engine so far,
and either the collected chunks or the propagated error. -/
abbrev PipeResult := List Str × Except PipeError (List AudioChunk)

mutual

/-- `tts_pipeline._synthesize_with_retry` (fuel-indexed).  The size
pre-check sends oversized text straight to splitting; otherwise the retry
loop runs with a fresh `attempts = 0`. -/
def synthWithRetryF : Nat → Engine → SynthSettings → Str → Nat → List Str → Option PipeResult
  | 0, _, _, _, _, _ => none
  | fuel + 1, eng, s, text, depth, trace =>
    if s.max_chars < text.length then splitAndSynthF fuel eng s text depth trace
    else retryLoopF fuel eng s text depth 0 trace
termination_by structural fuel => fuel

/-- The `while True` retry loop of `_synthesize_with_retry`.  Each pass
calls the engine once (appending the text to the trace) and dispatches on
the outcome exactly as the `except` clauses do. -/
def retryLoopF : Nat → Engine → SynthSettings → Str → Nat → Nat → List Str → Option PipeResult
  | 0, _, _, _, _, _, _ => none
  | fuel + 1, eng, s, text, depth, attempts, trace =>
    let trace' := trace ++ [text]
    match eng trace.length text with
    | .ok chunk => some (trace', .ok [chunk])
    | .inputError => some (trace', .ok [])
    | .sizeError => splitAndSynthF fuel eng s text depth trace'
    | .transientError =>
      if s.max_retries ≤ attempts then some (trace', .error .transient)
      else retryLoopF fuel eng s text depth (attempts + 1) trace'
    | .fatalError => some (trace', .error .fatal)
termination_by structural fuel => fuel

/-- `tts_pipeline._split_and_synthesize` (fuel-indexed). -/
def splitAndSynthF : Nat → Engine → SynthSettings → Str → Nat → List Str → Option PipeResult
  | 0, _, _, _, _, _ => none
  | fuel + 1, eng, s, text, depth, trace =>
    if 8 < depth then some (trace, .error (.size "Maximum split depth exceeded."))
    else
      let pieces := splitText text s
      if pieces = [] then some (trace, .error (.size "Unable to split text for synthesis."))
      else synthListF fuel eng s pieces (depth + 1) trace
termination_by structural fuel => fuel

/-- The piece/segment loop: `chunks.extend(_synthesize_with_retry(...))`
over a list, aborting when an exception propagates.  It is used both by
`_split_and_synthesize` (at `depth + 1`) and, at depth 0, for the segment
loop in `synthesize_text`. -/
def synthListF : Nat → Engine → SynthSettings → List Str → Nat → List Str → Option PipeResult
  | 0, _, _, _, _, _ => none
  | fuel + 1, _, _, [], _, trace => some (trace, .ok [])
  | fuel + 1, eng, s, piece :: rest, depth, trace =>
    match synthWithRetryF fuel eng s piece depth trace with
    | none => none
    | some (trace1, .error e) => some (trace1, .error e)
    | some (trace1, .ok chunks) =>
      match synthListF fuel eng s rest depth trace1 with
      | none => none
      | some (trace2, .error e) => some (trace2, .error e)
      | some (trace2, .ok chunks2) => some (trace2, .ok (chunks ++ chunks2))
termination_by structural fuel => fuel

end

deriving instance DecidableEq for Except

/-- `tts_pipeline.synthesize_text` with the default segmenter (fuel-indexed;
the injected-segmenter, cache and output-directory parameters do not alter
the control flow modelled here). -/
def synthesizeTextF (fuel : Nat) (eng : Engine) (s : SynthSettings) (text : Str) :
    Option PipeResult :=
  if text = [] then some ([], .ok [])
  else synthListF fuel eng s ((s.segCfg.segment text).map Segment.text) 0 []

/-! ## The cache key (`audio_cache.chunk_cache_key`)

`json.dumps(payload, sort_keys=True, separators=(",", ":"), ensure_ascii=True)`
is reproduced literally: the nine keys in sorted order, strings escaped to
ASCII, the rounded speed rendered the way `repr` renders a float whose value
has at most four decimal places.  `round(speed, 4)` (banker's rounding to
four decimal places) is modelled on `ℚ` as half-to-even rounding of
`speed * 10000`; the payload then depends on `speed` only through that
integer.  The SHA-256 of the UTF-8 bytes of the serialization is computed
bit-faithfully below. -/

/-- A lowercase hexadecimal digit. -/
def hexChar (d : Nat) : Char :=
  if d < 10 then Char.ofNat ('0'.toNat + d) else Char.ofNat ('a'.toNat + (d - 10))

/-- Four lowercase hex digits, zero padded (for `\uXXXX` escapes). -/
def hex4 (n : Nat) : Str :=
  [hexChar (n / 4096 % 16), hexChar (n / 256 % 16), hexChar (n / 16 % 16), hexChar (n % 16)]

/-- How `json.dumps(..., ensure_ascii=True)` renders one character inside a
string literal. -/
def jsonEscapeChar (c : Char) : Str :=
  if c = '"' then ['\\', '"']
  else if c = '\\' then ['\\', '\\']
  else if c = '\n' then ['\\', 'n']
  else if c = '\r' then ['\\', 'r']
  else if c = '\t' then ['\\', 't']
  else if c = '\x08' then ['\\', 'b']
  else if c = '\x0c' then ['\\', 'f']
  else if c.toNat < 0x20 then '\\' :: 'u' :: hex4 c.toNat
  else if c.toNat ≤ 0x7e then [c]
  else if c.toNat < 0x10000 then '\\' :: 'u' :: hex4 c.toNat
  else
    let v := c.toNat - 0x10000
    '\\' :: 'u' :: hex4 (0xd800 + v / 0x400) ++ '\\' :: 'u' :: hex4 (0xdc00 + v % 0x400)

/-- A JSON string literal (ASCII-escaped). -/
def jsonStr (s : Str) : Str := '"' :: s.flatMap jsonEscapeChar ++ ['"']

/-- Decimal digits of a natural number (`str(n)` for `n ≥ 0`). -/
def natRepr (n : Nat) : Str := Nat.toDigits 10 n

/-- `str(i)` for a Python int. -/
def intRepr (i : Int) : Str :=
  match i with
  | .ofNat n => natRepr n
  | .negSucc n => '-' :: natRepr (n + 1)

/-- `q * scale` rounded half to even to an integer (Python `round` on an
exact value), computed on the numerator and denominator: the floor of
`q.num * scale / q.den` is corrected upward when the remainder exceeds half
the denominator, and to the even neighbour at an exact half. -/
def roundScaledHalfEven (q : ℚ) (scale : Nat) : Int :=
  let n := q.num * scale
  let d : Int := q.den
  let f := n / d
  let r := n % d
  if 2 * r < d then f
  else if d < 2 * r then f + 1
  else if f % 2 = 0 then f else f + 1

/-- `round(speed, 4)` as an integer count of ten-thousandths. -/
def round4 (q : ℚ) : Int := roundScaledHalfEven q 10000

/-- `repr`/`json.dumps` of the float `n / 10000` (a value with at most four
decimal places prints as its shortest decimal form, with a mandatory `.0`
for integral values). -/
def floatRepr4 (n : Int) : Str :=
  let a := n.natAbs
  let ds :=
    [hexChar (a / 1000 % 10), hexChar (a / 100 % 10), hexChar (a / 10 % 10), hexChar (a % 10)]
  let ds := dropTrail (fun c => c = '0') ds
  (if n < 0 then ['-'] else []) ++ natRepr (a / 10000) ++
    '.' :: (if ds = [] then ['0'] else ds)

/-! ### SHA-256 over byte lists (FIPS 180-4) -/

/-- Truncate to a 32-bit word. -/
def w32 (n : Nat) : Nat := n % 4294967296

/-- Rotate a 32-bit word right by `n`. -/
def rotr32 (n x : Nat) : Nat := w32 ((x >>> n) ||| (x <<< (32 - n)))

def shaCh (x y z : Nat) : Nat := (x &&& y) ^^^ ((x ^^^ 0xffffffff) &&& z)

def shaMaj (x y z : Nat) : Nat := (x &&& y) ^^^ (x &&& z) ^^^ (y &&& z)

def bigSigma0 (x : Nat) : Nat := rotr32 2 x ^^^ rotr32 13 x ^^^ rotr32 22 x

def bigSigma1 (x : Nat) : Nat := rotr32 6 x ^^^ rotr32 11 x ^^^ rotr32 25 x

def smallSigma0 (x : Nat) : Nat := rotr32 7 x ^^^ rotr32 18 x ^^^ (x >>> 3)

def smallSigma1 (x : Nat) : Nat := rotr32 17 x ^^^ rotr32 19 x ^^^ (x >>> 10)

/-- The 64 round constants. -/
def shaK : List Nat :=
  [1116352408, 1899447441, 3049323471, 3921009573, 961987163, 1508970993,
   2453635748, 2870763221, 3624381080, 310598401, 607225278, 1426881987,
   1925078388, 2162078206, 2614888103, 3248222580, 3835390401, 4022224774,
   264347078, 604807628, 770255983, 1249150122, 1555081692, 1996064986,
   2554220882, 2821834349, 2952996808, 3210313671, 3336571891, 3584528711,
   113926993, 338241895, 666307205, 773529912, 1294757372, 1396182291,
   1695183700, 1986661051, 2177026350, 2456956037, 2730485921, 2820302411,
   3259730800, 3345764771, 3516065817, 3600352804, 4094571909, 275423344,
   430227734, 506948616, 659060556, 883997877, 958139571, 1322822218,
   1537002063, 1747873779, 1955562222, 2024104815, 2227730452, 2361852424,
   2428436474, 2756734187, 3204031479, 3329325298]

/-- The initial hash value. -/
def shaH0 : List Nat :=
  [1779033703, 3144134277, 1013904242, 2773480762,
   1359893119, 2600822924, 528734635, 1541459225]

/-- Merkle–Damgård padding: append `0x80`, zeros to 56 mod 64, then the
bit length as 8 big-endian bytes. -/
def shaPad (msg : List Nat) : List Nat :=
  let bitLen := 8 * msg.length
  let zeros := (119 - msg.length % 64) % 64
  msg ++ 0x80 :: List.replicate zeros 0 ++
    [bitLen / 2 ^ 56 % 256, bitLen / 2 ^ 48 % 256, bitLen / 2 ^ 40 % 256,
     bitLen / 2 ^ 32 % 256, bitLen / 2 ^ 24 % 256, bitLen / 2 ^ 16 % 256,
     bitLen / 2 ^ 8 % 256, bitLen % 256]

/-- Generic fixed-size slicing (64-byte blocks, 4-byte words). -/
def sliceGo {α : Type} (size : Nat) : Nat → List α → List (List α)
  | _, [] => []
  | 0, s => [s]
  | fuel + 1, s => s.take size :: sliceGo size fuel (s.drop size)

def slices {α : Type} (size : Nat) (s : List α) : List (List α) :=
  sliceGo size s.length s

/-- Big-endian 32-bit words of a 64-byte block. -/
def blockWords (block : List Nat) : List Nat :=
  (slices 4 block).map fun b => b.foldl (fun a x => a * 256 + x) 0

/-- Extend 16 words to the 64-word message schedule. -/
def msgSchedule (ws : List Nat) : List Nat :=
  (List.range 48).foldl
    (fun acc _ =>
      let n := acc.length
      acc ++ [w32 (smallSigma1 (acc.getD (n - 2) 0) + acc.getD (n - 7) 0 +
        smallSigma0 (acc.getD (n - 15) 0) + acc.getD (n - 16) 0)])
    ws

/-- One round of the compression function on the working variables. -/
def shaRound (st : List Nat) (kw : Nat × Nat) : List Nat :=
  let a := st.getD 0 0
  let b := st.getD 1 0
  let c := st.getD 2 0
  let d := st.getD 3 0
  let e := st.getD 4 0
  let f := st.getD 5 0
  let g := st.getD 6 0
  let h := st.getD 7 0
  let t1 := w32 (h + bigSigma1 e + shaCh e f g + kw.1 + kw.2)
  let t2 := w32 (bigSigma0 a + shaMaj a b c)
  [w32 (t1 + t2), a, b, c, w32 (d + t1), e, f, g]

/-- Compress one 64-byte block into the running hash. -/
def shaCompress (h : List Nat) (block : List Nat) : List Nat :=
  let ws := msgSchedule (blockWords block)
  let fin := (shaK.zip ws).foldl shaRound h
  [w32 (h.getD 0 0 + fin.getD 0 0), w32 (h.getD 1 0 + fin.getD 1 0),
   w32 (h.getD 2 0 + fin.getD 2 0), w32 (h.getD 3 0 + fin.getD 3 0),
   w32 (h.getD 4 0 + fin.getD 4 0), w32 (h.getD 5 0 + fin.getD 5 0),
   w32 (h.getD 6 0 + fin.getD 6 0), w32 (h.getD 7 0 + fin.getD 7 0)]

/-- Eight lowercase hex digits of a 32-bit word. -/
def toHex8 (w : Nat) : Str :=
  [hexChar (w / 268435456 % 16), hexChar (w / 16777216 % 16),
   hexChar (w / 1048576 % 16), hexChar (w / 65536 % 16),
   hexChar (w / 4096 % 16), hexChar (w / 256 % 16),
   hexChar (w / 16 % 16), hexChar (w % 16)]

/-- `hashlib.sha256(bytes).hexdigest()`. -/
def sha256hex (msg : List Nat) : Str :=
  (((slices 64 (shaPad msg)).foldl shaCompress shaH0).map toHex8).flatten

/-- UTF-8 encoding of one code point (`str.encode("utf-8")`). -/
def utf8Char (c : Char) : List Nat :=
  let n := c.toNat
  if n < 0x80 then [n]
  else if n < 0x800 then [0xc0 + n / 0x40, 0x80 + n % 0x40]
  else if n < 0x10000 then [0xe0 + n / 0x1000, 0x80 + n / 0x40 % 0x40, 0x80 + n % 0x40]
  else [0xf0 + n / 0x40000, 0x80 + n / 0x1000 % 0x40, 0x80 + n / 0x40 % 0x40, 0x80 + n % 0x40]

def utf8Bytes (s : Str) : List Nat := s.flatMap utf8Char

/-! ### The canonical payload and the key -/

/-- `"<name>":` for a payload key (the names contain nothing to escape). -/
def jsonKey (name : String) : Str := '"' :: name.toList ++ ['"', ':']

/-- The canonical serialization of the `chunk_cache_key` payload: sorted
keys, `(",", ":")` separators, ASCII escaping, version tag `"v": 1`. -/
def serializedPayload (text model_id voice lang_code ref_audio_id ref_text : Str)
    (speed4 : Int) (sample_rate channels : Int) : Str :=
  ['\x7b'] ++
    jsonKey "channels" ++ intRepr channels ++ [','] ++
    jsonKey "lang_code" ++ jsonStr lang_code ++ [','] ++
    jsonKey "model_id" ++ jsonStr model_id ++ [','] ++
    jsonKey "ref_audio_id" ++ jsonStr ref_audio_id ++ [','] ++
    jsonKey "ref_text" ++ jsonStr ref_text ++ [','] ++
    jsonKey "sample_rate" ++ intRepr sample_rate ++ [','] ++
    jsonKey "speed" ++ floatRepr4 speed4 ++ [','] ++
    jsonKey "text" ++ jsonStr text ++ [','] ++
    jsonKey "v" ++ ['1'] ++
  ['\x7d']

/-- `audio_cache.chunk_cache_key` (`voice or ""` sends both `None` and `""`
to the empty string, likewise for the other optional fields). -/
def chunk_cache_key (text : Str) (model_id : Str)
    (voice lang_code ref_audio_id ref_text : Option Str)
    (speed : ℚ) (sample_rate channels : Int) : Str :=
  let payload := serializedPayload text model_id (voice.getD []) (lang_code.getD [])
    (ref_audio_id.getD []) (ref_text.getD []) (round4 speed) sample_rate channels
  't' :: 't' :: 's' :: '_' :: sha256hex (utf8Bytes payload)

/-! ## Constructor validation over raw ints (`__post_init__`) -/

/-- `BasicTextSegmenter.__post_init__` succeeds (no `ValueError`): the four
checks, in source order, over unconstrained Python ints. -/
def postInitOk (max_chars min_chars : Int) (ensure_punct : Bool) : Bool :=
  if max_chars ≤ 0 then false
  else if min_chars < 0 then false
  else if max_chars < min_chars then false
  else if ensure_punct && max_chars < 2 then false
  else true

/-- `_hard_max` over the raw int fields (`int(max_chars * 1.25)` truncates
toward zero; for the positive `max_chars` a constructed segmenter has, that
is `5 * max_chars / 4` with `Int.div`). -/
def hardMaxInt (max_chars : Int) (hard_max_chars : Option Int) : Int :=
  match hard_max_chars with
  | none => Int.tdiv (5 * max_chars) 4
  | some h => max max_chars h

/-! ## The MLX engine's cache short-circuit (`MlxTtsEngine.synthesize`)

Only what the idempotency claim needs is modelled in detail: the speakable
pre-check, the `max_input_chars` pre-check, resolution of the output path,
and the short-circuit that returns an existing non-empty artifact without
loading a model or rendering.  The actual neural rendering is an external
collaborator and is abstracted as an injected `render` function; writing
the WAV updates the file system at the output path. -/

/-- `tts_engine._is_speakable_text`: non-empty after stripping, and not
matching `[\W_]+` — i.e. some character is alphanumeric. -/
def isSpeakable (text : Str) : Bool :=
  let stripped := pyStrip text
  if stripped = [] then false
  else stripped.any fun c => c.isAlpha || c.isDigit

/-- The file system as observed by the engine: `st_size` for existing
paths, and what `_wav_duration_ms` would read back. -/
structure FileSys where
  size : Str → Option Nat
  durationMs : Str → Option Int

/-- The subset of the per-call `engine_config` mapping the short-circuit
logic consults. -/
structure EngCfg where
  output_path : Option Str := none
  deriving DecidableEq

/-- The engine fields relevant to `synthesize` (the loaded-model handles
are abstracted to a flag set by `ensure_loaded`). -/
structure MlxEngine where
  model_id : Str
  output_dir : Str
  sample_rate : Int := 24000
  channels : Int := 1
  voice : Option Str := none
  lang_code : Option Str := none
  speed : ℚ := 1
  max_input_chars : Option Nat := none
  modelLoaded : Bool := false

/-- `tts_engine._chunk_id` (16 hex digits of the SHA-256 of a `|`-joined
payload; `f"{speed:.3f}"` is the three-decimal fixed rendering). -/
def fixed3 (q : ℚ) : Str :=
  let n := roundScaledHalfEven q 1000
  let a := n.natAbs
  (if n < 0 then ['-'] else []) ++ natRepr (a / 1000) ++
    '.' :: [hexChar (a / 100 % 10), hexChar (a / 10 % 10), hexChar (a % 10)]

def chunkId (text : Str) (model_id : Str) (voice lang_code : Option Str)
    (speed : ℚ) (sample_rate channels : Int) : Str :=
  let payload := model_id ++ '|' :: voice.getD [] ++ '|' :: lang_code.getD [] ++
    '|' :: fixed3 speed ++ '|' :: intRepr sample_rate ++ '|' :: intRepr channels ++
    '|' :: text
  't' :: 't' :: 's' :: '_' :: (sha256hex (utf8Bytes payload)).take 16

/-- Outcome of `MlxTtsEngine.synthesize`, together with the engine state,
the file system after the call, and whether audio was rendered. -/
structure MlxCall where
  result : EngineResult
  engine : MlxEngine
  fs : FileSys
  rendered : Bool

/-- `_write_wav` followed by `_wav_duration_ms`, abstracted: the file at
`path` becomes a non-empty WAV (44-byte header plus 16-bit samples) whose
duration is derived from the sample count. -/
def writeWav (fs : FileSys) (path : Str) (samples : Nat) (sample_rate channels : Int) :
    FileSys :=
  { size := fun p => if p = path then some (44 + 2 * samples) else fs.size p
    durationMs := fun p =>
      if p = path then
        if 0 < sample_rate then
          some (1000 * ((samples : Int) / max 1 channels) / sample_rate)
        else none
      else fs.durationMs p }

/-- `MlxTtsEngine.synthesize` (rendering abstracted as `render`). -/
def mlxSynthesize (render : Str → Nat) (fs : FileSys) (eng : MlxEngine)
    (text : Str) (voice : Option Str) (cfg : EngCfg) : MlxCall :=
  if ¬ isSpeakable text then ⟨.inputError, eng, fs, false⟩
  else if (match eng.max_input_chars with
           | some m => decide (m < text.length)
           | none => false) then ⟨.sizeError, eng, fs, false⟩
  else
    let resolvedVoice := voice <|> eng.voice
    let output_path :=
      match cfg.output_path with
      | some p => p
      | none =>
        eng.output_dir ++ '/' ::
          chunkId text eng.model_id resolvedVoice eng.lang_code eng.speed
            eng.sample_rate eng.channels ++ ".wav".toList
    match fs.size output_path with
    | some n =>
      if 0 < n then
        ⟨.ok ⟨0, output_path, fs.durationMs output_path⟩, eng, fs, false⟩
      else
        mlxRender render fs eng text output_path
    | none => mlxRender render fs eng text output_path
where
  /-- The tail of `synthesize` past the cache check: `ensure_loaded`, the
  model call, the empty-audio check, the WAV write. -/
  mlxRender (render : Str → Nat) (fs : FileSys) (eng : MlxEngine) (text : Str)
      (output_path : Str) : MlxCall :=
    let eng := { eng with modelLoaded := true }
    let samples := render text
    if samples = 0 then ⟨.transientError, eng, fs, true⟩
    else
      let fs := writeWav fs output_path samples eng.sample_rate eng.channels
      ⟨.ok ⟨0, output_path, fs.durationMs output_path⟩, eng, fs, true⟩

/-- `AudioCacheLayout.chunk_path` as a path string
(`<root>/tts/chunks/<key[:2] or "00">/<key>.<ext>`). -/
def chunkPath (root : Str) (key : Str) (ext : Str) : Str :=
  root ++ "/tts/chunks/".toList ++ (if 2 ≤ key.length then key.take 2 else "00".toList) ++
    '/' :: key ++ '.' :: ext

/-- `tts_pipeline._resolve_output_path` (directory creation is a file-system
effect with no bearing on the returned path). -/
def resolveOutputPath (text : Str) (s : SynthSettings)
    (resolved_voice resolved_lang : Option Str)
    (cache : Option Str) (output_dir : Option Str) (output_format : Str) : Option Str :=
  if cache = none ∧ output_dir = none then none
  else
    let key := chunk_cache_key text s.model_id resolved_voice resolved_lang
      s.ref_audio_id s.ref_text s.speed s.sample_rate s.channels
    match cache with
    | some root => some (chunkPath root key output_format)
    | none =>
      match output_dir with
      | some d => some (d ++ '/' :: key ++ '.' :: output_format)
      | none => none

/-! ## Predicates used by the segmenter invariants -/

/-- No whitespace anywhere in the string (e.g. a `str.split()` word). -/
def NoWs (s : Str) : Prop := ∀ c ∈ s, isWs c = false

/-- The string carries no surrounding whitespace (`s.strip() == s`). -/
def StrippedStr (s : Str) : Prop :=
  (∀ c, s.head? = some c → isWs c = false) ∧ (∀ c, s.getLast? = some c → isWs c = false)

/-- The string contains at least one non-whitespace character. -/
def HasSolid (s : Str) : Prop := ∃ c ∈ s, isWs c = false

/-- What `append_piece` may be fed: within the hard limit, or a single
whitespace-free word (which is exactly what `_split_long_sentence` emits). -/
def PieceOK (cfg : SegCfg) (p : Str) : Prop := p.length ≤ cfg.hardLimit ∨ NoWs p

/-- A segment text exceeding the bound is an unbreakable whitespace-free
word, with at most the appended terminal dot. -/
def OverlongWordSeg (cfg : SegCfg) (t : Str) : Prop :=
  ∃ w : Str, NoWs w ∧ cfg.hardLimit < w.length ∧ (t = w ∨ t = w ++ ['.'])

/-- The length a flush can emit: the accumulator bound plus the one
character reserved for the appended terminal punctuation. -/
def emitBound (cfg : SegCfg) : Nat :=
  cfg.hardLimit + (if cfg.ensure_terminal_punctuation then 1 else 0)

/-- Size discipline of an emitted segment. -/
def SizeOKSeg (cfg : SegCfg) (t : Str) : Prop :=
  t.length ≤ emitBound cfg ∨ OverlongWordSeg cfg t

/-- Shape discipline of an emitted segment: non-empty, stripped, and
terminally punctuated when enforcement is on. -/
def SegEmitOK (cfg : SegCfg) (t : Str) : Prop :=
  t ≠ [] ∧ StrippedStr t ∧ (cfg.ensure_terminal_punctuation = true → endsTerminal t = true)

/-- Invariant on the accumulator. -/
def CurOK (cfg : SegCfg) (cur : Str) : Prop :=
  cur = [] ∨ (StrippedStr cur ∧ cur ≠ [] ∧
    (cur.length ≤ cfg.hardLimit ∨ (NoWs cur ∧ cfg.hardLimit < cur.length)))

/-- The master invariant of the `segment` state machine. -/
def StInv (cfg : SegCfg) (st : SegState) : Prop :=
  CurOK cfg st.current ∧ ∀ sg ∈ st.segments, SegEmitOK cfg sg.text ∧ SizeOKSeg cfg sg.text

/-- Invariant of the `_split_long_sentence` word fold. -/
def LongAcc (cfg : SegCfg) (acc : List Str × Str) : Prop :=
  (∀ p ∈ acc.1, PieceOK cfg p) ∧ (acc.2 = [] ∨ PieceOK cfg acc.2)

/-- The state already guarantees at least one segment will come out. -/
def Productive (st : SegState) : Prop := st.segments ≠ [] ∨ st.current ≠ []

/-! ## Concrete instances used by the witnesses -/

def sampleChunk : AudioChunk := ⟨0, "out.wav".toList, none⟩

/-- The engine scenario of the retry claims: `TransientError` on the first
`k` invocations, success afterwards. -/
def retryKEngine (k : Nat) : Engine :=
  fun i _ => if i < k then .transientError else .ok sampleChunk

def okEngine : Engine := fun _ _ => .ok sampleChunk

/-- An engine that raises `TtsInputError` on non-speakable text (as the real
engines do via `_is_speakable_text`) and succeeds otherwise. -/
def skipEngine : Engine :=
  fun _ t => if isSpeakable t then .ok sampleChunk else .inputError

def sampleSettings : SynthSettings :=
  ⟨"test-model".toList, 50, 10, some 60, 1, 0, 0, 24000, 1, 1, none, none, none⟩

def sampleSettings2 : SynthSettings :=
  ⟨"test-model".toList, 200, 10, none, 3, 0, 0, 24000, 1, 1, none, none, none⟩

def sampleFs : FileSys :=
  { size := fun p => if p = "cache/tts/chunks/aa/x.wav".toList then some 4096 else none
    durationMs := fun p => if p = "cache/tts/chunks/aa/x.wav".toList then some 1500 else none }

def sampleMlx : MlxEngine :=
  { model_id := "test-model".toList, output_dir := "out".toList }

/-- Which accumulators of the `_split_long_sentence` fold still hold a
non-whitespace character. -/
def LongSolid (acc : List Str × Str) : Prop :=
  (∃ p ∈ acc.1, HasSolid p) ∨ HasSolid acc.2

/-! # Theorems -/

/-! ## General helpers -/

theorem some_pair_eq {α β : Type} {a a' : α} {b b' : β}
    (h : some (a, b) = some (a', b')) : a = a' ∧ b = b' := by
  injection h with h1
  exact ⟨congrArg Prod.fst h1, congrArg Prod.snd h1⟩

theorem tdiv_five_quarter_ge (mc : Int) (h : 0 < mc) : mc ≤ Int.tdiv (5 * mc) 4 := by
  obtain ⟨n, rfl⟩ : ∃ n : Nat, mc = (n : Int) := ⟨mc.toNat, (Int.toNat_of_nonneg h.le).symm⟩
  have h5 : (5 : Int) * (n : Int) = ((5 * n : Nat) : Int) := by push_cast; ring
  rw [h5, show (4 : Int) = ((4 : Nat) : Int) from rfl]
  rw [show Int.tdiv ((5 * n : Nat) : Int) ((4 : Nat) : Int) = ((5 * n / 4 : Nat) : Int) from rfl]
  have hn : 0 < n := by exact_mod_cast h
  have : n ≤ 5 * n / 4 := Nat.le_div_iff_mul_le (by norm_num) |>.2 (by omega)
  exact_mod_cast this

theorem hardMax_ge (cfg : SegCfg) : cfg.max_chars ≤ cfg.hardMax := by
  unfold SegCfg.hardMax
  cases cfg.hard_max_chars with
  | none => simp only; omega
  | some h => exact le_max_left _ _

/-! ## SHA-256 output format -/

theorem shaCompress_length (h b : List Nat) : (shaCompress h b).length = 8 := by
  simp [shaCompress]

theorem foldl_shaCompress_length :
    ∀ (bs : List (List Nat)) (h : List Nat), h.length = 8 →
      (bs.foldl shaCompress h).length = 8 := by
  intro bs
  induction bs with
  | nil => intro h hh; simpa using hh
  | cons b rest ih => intro h hh; exact ih _ (shaCompress_length h b)

theorem toHex8_length (w : Nat) : (toHex8 w).length = 8 := rfl

theorem sha256hex_length (m : List Nat) : (sha256hex m).length = 64 := by
  unfold sha256hex
  have h8 := foldl_shaCompress_length (slices 64 (shaPad m)) shaH0 rfl
  generalize (slices 64 (shaPad m)).foldl shaCompress shaH0 = ws at h8
  rw [List.length_flatten, List.map_map]
  have : ∀ l : List Nat, ((l.map (List.length ∘ toHex8)).sum) = 8 * l.length := by
    intro l
    induction l with
    | nil => simp
    | cons a rest ih => simp [ih, toHex8_length]; ring
  rw [this, h8]

theorem hexChar_mem_of_lt :
    ∀ d, d < 16 → ("0123456789abcdef".toList).contains (hexChar d) = true := by decide

theorem toHex8_mem (w : Nat) :
    ∀ c ∈ toHex8 w, ("0123456789abcdef".toList).contains c = true := by
  intro c hc
  simp only [toHex8, List.mem_cons, List.not_mem_nil, or_false] at hc
  rcases hc with h | h | h | h | h | h | h | h <;> subst h <;>
    exact hexChar_mem_of_lt _ (Nat.mod_lt _ (by norm_num))

theorem sha256hex_mem (m : List Nat) :
    ∀ c ∈ sha256hex m, ("0123456789abcdef".toList).contains c = true := by
  intro c hc
  unfold sha256hex at hc
  rw [List.mem_flatten] at hc
  obtain ⟨l, hl, hcl⟩ := hc
  rw [List.mem_map] at hl
  obtain ⟨w, _, rfl⟩ := hl
  exact toHex8_mem w c hcl
theorem pipeMonoAll : ∀ fuel : Nat,
    (∀ eng s text depth tr r, synthWithRetryF fuel eng s text depth tr = some r →
        synthWithRetryF (fuel + 1) eng s text depth tr = some r)
    ∧ (∀ eng s text depth a tr r, retryLoopF fuel eng s text depth a tr = some r →
        retryLoopF (fuel + 1) eng s text depth a tr = some r)
    ∧ (∀ eng s text depth tr r, splitAndSynthF fuel eng s text depth tr = some r →
        splitAndSynthF (fuel + 1) eng s text depth tr = some r)
    ∧ (∀ eng s pieces depth tr r, synthListF fuel eng s pieces depth tr = some r →
        synthListF (fuel + 1) eng s pieces depth tr = some r) := by
  intro fuel
  induction fuel with
  | zero =>
    exact ⟨fun _ _ _ _ _ _ h => by simp [synthWithRetryF] at h,
      fun _ _ _ _ _ _ _ h => by simp [retryLoopF] at h,
      fun _ _ _ _ _ _ h => by simp [splitAndSynthF] at h,
      fun _ _ _ _ _ _ h => by simp [synthListF] at h⟩
  | succ fuel ih =>
    obtain ⟨ihW, ihR, ihS, ihL⟩ := ih
    refine ⟨?_, ?_, ?_, ?_⟩
    · intro eng s text depth tr r h
      rw [synthWithRetryF] at h ⊢
      by_cases hc : s.max_chars < text.length
      · rw [if_pos hc] at h ⊢; exact ihS _ _ _ _ _ _ h
      · rw [if_neg hc] at h ⊢; exact ihR _ _ _ _ _ _ _ h
    · intro eng s text depth a tr r h
      rw [retryLoopF] at h ⊢
      cases hcase : eng tr.length text <;> rw [hcase] at h <;> simp only at h ⊢
      case ok c => exact h
      case inputError => exact h
      case sizeError => exact ihS _ _ _ _ _ _ h
      case transientError =>
        by_cases hc : s.max_retries ≤ a
        · rw [if_pos hc] at h ⊢; exact h
        · rw [if_neg hc] at h ⊢; exact ihR _ _ _ _ _ _ _ h
      case fatalError => exact h
    · intro eng s text depth tr r h
      rw [splitAndSynthF] at h ⊢
      by_cases hd : 8 < depth
      · rw [if_pos hd] at h ⊢; exact h
      · rw [if_neg hd] at h ⊢
        simp only at h ⊢
        by_cases hp : splitText text s = []
        · rw [if_pos hp] at h ⊢; exact h
        · rw [if_neg hp] at h ⊢; exact ihL _ _ _ _ _ _ h
    · intro eng s pieces depth tr r h
      match pieces with
      | [] =>
        rw [synthListF] at h ⊢
        exact h
      | p :: rest =>
        rw [synthListF] at h ⊢
        cases hW : synthWithRetryF fuel eng s p depth tr with
        | none => rw [hW] at h; exact absurd h (by simp)
        | some r1 =>
          rw [hW] at h
          rw [ihW _ _ _ _ _ _ hW]
          obtain ⟨tr1, res1⟩ := r1
          cases res1 with
          | error e => exact h
          | ok cs =>
            simp only at h ⊢
            cases hL : synthListF fuel eng s rest depth tr1 with
            | none => rw [hL] at h; exact absurd h (by simp)
            | some r2 =>
              rw [hL] at h
              rw [ihL _ _ _ _ _ _ hL]
              exact h

theorem synthWithRetryF_mono {fuel fuel' : Nat} (hle : fuel ≤ fuel')
    {eng s text depth tr r} (h : synthWithRetryF fuel eng s text depth tr = some r) :
    synthWithRetryF fuel' eng s text depth tr = some r := by
  induction fuel', hle using Nat.le_induction with
  | base => exact h
  | succ n hn ih => exact (pipeMonoAll n).1 _ _ _ _ _ _ ih

theorem retryLoopF_mono {fuel fuel' : Nat} (hle : fuel ≤ fuel')
    {eng s text depth a tr r} (h : retryLoopF fuel eng s text depth a tr = some r) :
    retryLoopF fuel' eng s text depth a tr = some r := by
  induction fuel', hle using Nat.le_induction with
  | base => exact h
  | succ n hn ih => exact (pipeMonoAll n).2.1 _ _ _ _ _ _ _ ih

theorem splitAndSynthF_mono {fuel fuel' : Nat} (hle : fuel ≤ fuel')
    {eng s text depth tr r} (h : splitAndSynthF fuel eng s text depth tr = some r) :
    splitAndSynthF fuel' eng s text depth tr = some r := by
  induction fuel', hle using Nat.le_induction with
  | base => exact h
  | succ n hn ih => exact (pipeMonoAll n).2.2.1 _ _ _ _ _ _ ih

theorem synthListF_mono {fuel fuel' : Nat} (hle : fuel ≤ fuel')
    {eng s pieces depth tr r} (h : synthListF fuel eng s pieces depth tr = some r) :
    synthListF fuel' eng s pieces depth tr = some r := by
  induction fuel', hle using Nat.le_induction with
  | base => exact h
  | succ n hn ih => exact (pipeMonoAll n).2.2.2 _ _ _ _ _ _ ih

/-- Any run of the retry loop terminates, assuming splitting at this depth
terminates. -/
theorem retryLoopF_exists (eng : Engine) (s : SynthSettings) (depth : Nat)
    (hA : ∀ text tr, ∃ n r, splitAndSynthF n eng s text depth tr = some r) :
    ∀ a text tr, ∃ n r, retryLoopF n eng s text depth a tr = some r := by
  suffices H : ∀ k a, s.max_retries - a ≤ k → ∀ text tr, ∃ n r, retryLoopF n eng s text depth a tr = some r by
    intro a text tr
    exact H (s.max_retries - a) a le_rfl text tr
  intro k
  induction k with
  | zero =>
    intro a ha text tr
    have hge : s.max_retries ≤ a := by omega
    cases hcase : eng tr.length text with
    | ok c => exact ⟨1, _, by rw [retryLoopF, hcase]⟩
    | inputError => exact ⟨1, _, by rw [retryLoopF, hcase]⟩
    | sizeError =>
      obtain ⟨n, r, hn⟩ := hA text (tr ++ [text])
      exact ⟨n + 1, r, by rw [retryLoopF, hcase]; exact hn⟩
    | transientError =>
      exact ⟨1, _, by rw [retryLoopF, hcase]; rw [if_pos hge]⟩
    | fatalError => exact ⟨1, _, by rw [retryLoopF, hcase]⟩
  | succ k ih =>
    intro a ha text tr
    cases hcase : eng tr.length text with
    | ok c => exact ⟨1, _, by rw [retryLoopF, hcase]⟩
    | inputError => exact ⟨1, _, by rw [retryLoopF, hcase]⟩
    | sizeError =>
      obtain ⟨n, r, hn⟩ := hA text (tr ++ [text])
      exact ⟨n + 1, r, by rw [retryLoopF, hcase]; exact hn⟩
    | transientError =>
      by_cases hge : s.max_retries ≤ a
      · exact ⟨1, _, by rw [retryLoopF, hcase]; rw [if_pos hge]⟩
      · obtain ⟨n, r, hn⟩ := ih (a + 1) (by omega) text (tr ++ [text])
        exact ⟨n + 1, r, by rw [retryLoopF, hcase]; rw [if_neg hge]; exact hn⟩
    | fatalError => exact ⟨1, _, by rw [retryLoopF, hcase]⟩

theorem synthWithRetryF_exists (eng : Engine) (s : SynthSettings) (depth : Nat)
    (hA : ∀ text tr, ∃ n r, splitAndSynthF n eng s text depth tr = some r) :
    ∀ text tr, ∃ n r, synthWithRetryF n eng s text depth tr = some r := by
  intro text tr
  by_cases hc : s.max_chars < text.length
  · obtain ⟨n, r, hn⟩ := hA text tr
    exact ⟨n + 1, r, by rw [synthWithRetryF, if_pos hc]; exact hn⟩
  · obtain ⟨n, r, hn⟩ := retryLoopF_exists eng s depth hA 0 text tr
    exact ⟨n + 1, r, by rw [synthWithRetryF, if_neg hc]; exact hn⟩

theorem synthListF_exists (eng : Engine) (s : SynthSettings) (depth : Nat)
    (hW : ∀ text tr, ∃ n r, synthWithRetryF n eng s text depth tr = some r) :
    ∀ pieces tr, ∃ n r, synthListF n eng s pieces depth tr = some r := by
  intro pieces
  induction pieces with
  | nil => intro tr; exact ⟨1, _, by rw [synthListF]⟩
  | cons p rest ih =>
    intro tr
    obtain ⟨n1, ⟨tr1, res1⟩, h1⟩ := hW p tr
    cases res1 with
    | error e =>
      refine ⟨n1 + 1, (tr1, .error e), ?_⟩
      rw [synthListF, h1]
    | ok cs =>
      obtain ⟨n2, ⟨tr2, res2⟩, h2⟩ := ih tr1
      cases res2 with
      | error e =>
        refine ⟨max n1 n2 + 1, (tr2, .error e), ?_⟩
        rw [synthListF]
        simp only [synthWithRetryF_mono (le_max_left n1 n2) h1,
          synthListF_mono (le_max_right n1 n2) h2]
      | ok cs2 =>
        refine ⟨max n1 n2 + 1, (tr2, .ok (cs ++ cs2)), ?_⟩
        rw [synthListF]
        simp only [synthWithRetryF_mono (le_max_left n1 n2) h1,
          synthListF_mono (le_max_right n1 n2) h2]

theorem splitAndSynthF_exists (eng : Engine) (s : SynthSettings) :
    ∀ (D depth : Nat), 9 - depth ≤ D →
      ∀ text tr, ∃ n r, splitAndSynthF n eng s text depth tr = some r := by
  intro D
  induction D with
  | zero =>
    intro depth hD text tr
    have : 8 < depth := by omega
    exact ⟨1, _, by rw [splitAndSynthF, if_pos this]⟩
  | succ D ih =>
    intro depth hD text tr
    by_cases hd : 8 < depth
    · exact ⟨1, (tr, .error (.size "Maximum split depth exceeded.")),
        by rw [splitAndSynthF, if_pos hd]⟩
    · have hA : ∀ t tr', ∃ n r, splitAndSynthF n eng s t (depth + 1) tr' = some r :=
        ih (depth + 1) (by omega)
      by_cases hp : splitText text s = []
      · exact ⟨1, (tr, .error (.size "Unable to split text for synthesis.")),
          by rw [splitAndSynthF, if_neg hd]; simp [hp]⟩
      · obtain ⟨n, r, hn⟩ := synthListF_exists eng s (depth + 1)
          (synthWithRetryF_exists eng s (depth + 1) hA) (splitText text s) tr
        exact ⟨n + 1, r, by rw [splitAndSynthF, if_neg hd]; simp only [if_neg hp]; exact hn⟩

theorem synthesizeTextF_exists (eng : Engine) (s : SynthSettings) (text : Str) :
    ∃ n r, synthesizeTextF n eng s text = some r ∧
      ∀ m, n ≤ m → synthesizeTextF m eng s text = some r := by
  by_cases ht : text = []
  · exact ⟨0, ([], .ok []), by rw [synthesizeTextF, if_pos ht],
      fun m _ => by rw [synthesizeTextF, if_pos ht]⟩
  · have hA : ∀ t tr, ∃ n r, splitAndSynthF n eng s t 0 tr = some r :=
      splitAndSynthF_exists eng s 9 0 (by omega)
    obtain ⟨n, r, hn⟩ := synthListF_exists eng s 0
      (synthWithRetryF_exists eng s 0 hA) ((s.segCfg.segment text).map Segment.text) []
    refine ⟨n, r, ?_, ?_⟩
    · rw [synthesizeTextF, if_neg ht]; exact hn
    · intro m hm
      rw [synthesizeTextF, if_neg ht]
      exact synthListF_mono hm hn

theorem traceBoundAll : ∀ fuel : Nat,
    (∀ eng s text depth tr tr' res,
        synthWithRetryF fuel eng s text depth tr = some (tr', res) →
        ∀ u ∈ tr', u ∈ tr ∨ u.length ≤ s.max_chars)
    ∧ (∀ eng s text depth a tr tr' res, text.length ≤ s.max_chars →
        retryLoopF fuel eng s text depth a tr = some (tr', res) →
        ∀ u ∈ tr', u ∈ tr ∨ u.length ≤ s.max_chars)
    ∧ (∀ eng s text depth tr tr' res,
        splitAndSynthF fuel eng s text depth tr = some (tr', res) →
        ∀ u ∈ tr', u ∈ tr ∨ u.length ≤ s.max_chars)
    ∧ (∀ eng s pieces depth tr tr' res,
        synthListF fuel eng s pieces depth tr = some (tr', res) →
        ∀ u ∈ tr', u ∈ tr ∨ u.length ≤ s.max_chars) := by
  intro fuel
  induction fuel with
  | zero =>
    exact ⟨fun _ _ _ _ _ _ _ h => by simp [synthWithRetryF] at h,
      fun _ _ _ _ _ _ _ _ _ h => by simp [retryLoopF] at h,
      fun _ _ _ _ _ _ _ h => by simp [splitAndSynthF] at h,
      fun _ _ _ _ _ _ _ h => by simp [synthListF] at h⟩
  | succ fuel ih =>
    obtain ⟨ihW, ihR, ihS, ihL⟩ := ih
    refine ⟨?_, ?_, ?_, ?_⟩
    · intro eng s text depth tr tr' res h u hu
      rw [synthWithRetryF] at h
      by_cases hc : s.max_chars < text.length
      · rw [if_pos hc] at h; exact ihS _ _ _ _ _ _ _ h u hu
      · rw [if_neg hc] at h
        exact ihR _ _ _ _ _ _ _ _ (by omega) h u hu
    · intro eng s text depth a tr tr' res hlen h u hu
      rw [retryLoopF] at h
      have hbase : u ∈ tr ++ [text] → u ∈ tr ∨ u.length ≤ s.max_chars := by
        intro hm
        rcases List.mem_append.1 hm with hm | hm
        · exact Or.inl hm
        · simp only [List.mem_singleton] at hm; subst hm; exact Or.inr hlen
      have hstep : (u ∈ tr ++ [text] ∨ u.length ≤ s.max_chars) →
          u ∈ tr ∨ u.length ≤ s.max_chars := by
        rintro (hm | hm)
        · exact hbase hm
        · exact Or.inr hm
      cases hcase : eng tr.length text <;> rw [hcase] at h <;> simp only at h
      case ok c =>
        obtain ⟨rfl, -⟩ := some_pair_eq h
        exact hbase hu
      case inputError =>
        obtain ⟨rfl, -⟩ := some_pair_eq h
        exact hbase hu
      case sizeError => exact hstep (ihS _ _ _ _ _ _ _ h u hu)
      case transientError =>
        by_cases hge : s.max_retries ≤ a
        · rw [if_pos hge] at h
          obtain ⟨rfl, -⟩ := some_pair_eq h
          exact hbase hu
        · rw [if_neg hge] at h
          exact hstep (ihR _ _ _ _ _ _ _ _ hlen h u hu)
      case fatalError =>
        obtain ⟨rfl, -⟩ := some_pair_eq h
        exact hbase hu
    · intro eng s text depth tr tr' res h u hu
      rw [splitAndSynthF] at h
      by_cases hd : 8 < depth
      · rw [if_pos hd] at h
        obtain ⟨rfl, -⟩ := some_pair_eq h
        exact Or.inl hu
      · rw [if_neg hd] at h
        simp only at h
        by_cases hp : splitText text s = []
        · rw [if_pos hp] at h
          obtain ⟨rfl, -⟩ := some_pair_eq h
          exact Or.inl hu
        · rw [if_neg hp] at h
          exact ihL _ _ _ _ _ _ _ h u hu
    · intro eng s pieces depth tr tr' res h u hu
      match pieces with
      | [] =>
        rw [synthListF] at h
        obtain ⟨rfl, -⟩ := some_pair_eq h
        exact Or.inl hu
      | p :: rest =>
        rw [synthListF] at h
        cases hW : synthWithRetryF fuel eng s p depth tr with
        | none => rw [hW] at h; exact absurd h (by simp)
        | some r1 =>
          rw [hW] at h
          obtain ⟨tr1, res1⟩ := r1
          cases res1 with
          | error e =>
            simp only at h
            obtain ⟨rfl, -⟩ := some_pair_eq h
            exact ihW _ _ _ _ _ _ _ hW u hu
          | ok cs =>
            simp only at h
            cases hL : synthListF fuel eng s rest depth tr1 with
            | none => rw [hL] at h; exact absurd h (by simp)
            | some r2 =>
              rw [hL] at h
              obtain ⟨tr2, res2⟩ := r2
              have hcomp : u ∈ tr2 → u ∈ tr ∨ u.length ≤ s.max_chars := by
                intro hm
                rcases ihL _ _ _ _ _ _ _ hL u hm with hm1 | hm1
                · exact ihW _ _ _ _ _ _ _ hW u hm1
                · exact Or.inr hm1
              cases res2 with
              | error e =>
                simp only at h
                obtain ⟨rfl, -⟩ := some_pair_eq h
                exact hcomp hu
              | ok cs2 =>
                simp only at h
                obtain ⟨rfl, -⟩ := some_pair_eq h
                exact hcomp hu

/-- C5: the orchestrator never invokes the engine's `synthesize` with text
longer than `settings.max_chars` — every text in the call trace of a
completed `synthesize_text` run is within the bound, at every recursion
depth (oversized units go straight to splitting). -/
theorem claim_C5_engine_input_bound :
    ∀ fuel eng s text tr res, synthesizeTextF fuel eng s text = some (tr, res) →
      ∀ u ∈ tr, u.length ≤ s.max_chars := by
  intro fuel eng s text tr res h u hu
  rw [synthesizeTextF] at h
  by_cases ht : text = []
  · rw [if_pos ht] at h
    obtain ⟨rfl, -⟩ := some_pair_eq h
    exact absurd hu (by simp)
  · rw [if_neg ht] at h
    rcases (traceBoundAll fuel).2.2.2 _ _ _ _ _ _ _ h u hu with hm | hm
    · exact absurd hm (by simp)
    · exact hm

section C1
variable (eng : Engine) (s : SynthSettings) (k : Nat) (chunk : AudioChunk)
  (text : Str) (depth : Nat)

/-- Retry loop behaviour under a "fails exactly `k` times, then succeeds"
engine, success side: the loop issues `k - a + 1` more calls. -/
theorem retryLoop_success
    (h1 : ∀ i t, i < k → eng i t = .transientError)
    (h2 : ∀ t, eng k t = .ok chunk)
    (hk : k ≤ s.max_retries) :
    ∀ j a, k - a ≤ j → a ≤ k → ∀ fuel, k - a < fuel →
      retryLoopF fuel eng s text depth a (List.replicate a text)
        = some (List.replicate (k + 1) text, .ok [chunk]) := by
  intro j
  induction j with
  | zero =>
    intro a haj hak fuel hfuel
    have hak' : a = k := by omega
    subst hak'
    obtain ⟨f, rfl⟩ : ∃ f, fuel = f + 1 := ⟨fuel - 1, by omega⟩
    rw [retryLoopF]
    rw [List.length_replicate, h2 text]
    rw [← List.replicate_succ']
  | succ j ih =>
    intro a haj hak fuel hfuel
    by_cases hak' : a = k
    · subst hak'
      obtain ⟨f, rfl⟩ : ∃ f, fuel = f + 1 := ⟨fuel - 1, by omega⟩
      rw [retryLoopF]
      rw [List.length_replicate, h2 text]
      rw [← List.replicate_succ']
    · have hlt : a < k := by omega
      obtain ⟨f, rfl⟩ : ∃ f, fuel = f + 1 := ⟨fuel - 1, by omega⟩
      rw [retryLoopF]
      rw [List.length_replicate, h1 a text hlt]
      simp only
      rw [if_neg (by omega)]
      rw [← List.replicate_succ']
      exact ih (a + 1) (by omega) (by omega) f (by omega)

/-- Retry loop behaviour, exhaustion side: after `max_retries + 1` calls the
transient error propagates. -/
theorem retryLoop_exhaust
    (h1 : ∀ i t, i < k → eng i t = .transientError)
    (hk : s.max_retries < k) :
    ∀ j a, s.max_retries - a ≤ j → a ≤ s.max_retries → ∀ fuel, s.max_retries - a < fuel →
      retryLoopF fuel eng s text depth a (List.replicate a text)
        = some (List.replicate (s.max_retries + 1) text, .error .transient) := by
  intro j
  induction j with
  | zero =>
    intro a haj hak fuel hfuel
    have hak' : a = s.max_retries := by omega
    subst hak'
    obtain ⟨f, rfl⟩ : ∃ f, fuel = f + 1 := ⟨fuel - 1, by omega⟩
    rw [retryLoopF]
    rw [List.length_replicate, h1 s.max_retries text (by omega)]
    simp only
    rw [if_pos le_rfl]
    rw [← List.replicate_succ']
  | succ j ih =>
    intro a haj hak fuel hfuel
    by_cases hak' : a = s.max_retries
    · subst hak'
      obtain ⟨f, rfl⟩ : ∃ f, fuel = f + 1 := ⟨fuel - 1, by omega⟩
      rw [retryLoopF]
      rw [List.length_replicate, h1 s.max_retries text (by omega)]
      simp only
      rw [if_pos le_rfl]
      rw [← List.replicate_succ']
    · obtain ⟨f, rfl⟩ : ∃ f, fuel = f + 1 := ⟨fuel - 1, by omega⟩
      rw [retryLoopF]
      rw [List.length_replicate, h1 a text (by omega)]
      simp only
      rw [if_neg (by omega)]
      rw [← List.replicate_succ']
      exact ih (a + 1) (by omega) (by omega) f (by omega)

end C1

/-- C1, corrected.  An engine that raises `TransientError` on exactly the
first `k` invocations and succeeds on the next one: when `k ≤ max_retries`
(the loop tolerates `max_retries` failures beyond the first attempt),
`synthesize_text` on a single in-bounds segment yields exactly one chunk
after exactly `k + 1` engine calls; when `k > max_retries`, the transient
error propagates after `max_retries + 1` calls. -/
theorem claim_C1_retry_determinism :
    ∀ (eng : Engine) (s : SynthSettings) (k : Nat) (chunk : AudioChunk) (text segText : Str),
      (∀ i t, i < k → eng i t = .transientError) →
      (∀ t, eng k t = .ok chunk) →
      s.segCfg.segment text = [⟨0, segText⟩] →
      segText.length ≤ s.max_chars →
      text ≠ [] →
      (k ≤ s.max_retries →
        ∀ fuel, k + 3 ≤ fuel →
          synthesizeTextF fuel eng s text
            = some (List.replicate (k + 1) segText, .ok [chunk]))
      ∧ (s.max_retries < k →
        ∀ fuel, s.max_retries + 3 ≤ fuel →
          synthesizeTextF fuel eng s text
            = some (List.replicate (s.max_retries + 1) segText, .error .transient)) := by
  intro eng s k chunk text segText h1 h2 hseg hlen htext
  constructor
  · intro hk fuel hfuel
    obtain ⟨f1, rfl⟩ : ∃ f, fuel = f + 1 := ⟨fuel - 1, by omega⟩
    obtain ⟨f2, rfl⟩ : ∃ f, f1 = f + 1 := ⟨f1 - 1, by omega⟩
    obtain ⟨f3, rfl⟩ : ∃ f, f2 = f + 1 := ⟨f2 - 1, by omega⟩
    rw [synthesizeTextF, if_neg htext, hseg]
    show synthListF (f3 + 1 + 1 + 1) eng s [segText] 0 [] = _
    rw [synthListF]
    rw [synthWithRetryF, if_neg (by omega)]
    have := retryLoop_success eng s k chunk segText 0 h1 h2 hk k 0 (by omega) (by omega)
      (f3 + 1) (by omega)
    rw [show (List.replicate 0 segText) = ([] : List Str) from rfl] at this
    rw [this]
    simp [synthListF]
  · intro hk fuel hfuel
    obtain ⟨f1, rfl⟩ : ∃ f, fuel = f + 1 := ⟨fuel - 1, by omega⟩
    obtain ⟨f2, rfl⟩ : ∃ f, f1 = f + 1 := ⟨f1 - 1, by omega⟩
    obtain ⟨f3, rfl⟩ : ∃ f, f2 = f + 1 := ⟨f2 - 1, by omega⟩
    rw [synthesizeTextF, if_neg htext, hseg]
    show synthListF (f3 + 1 + 1 + 1) eng s [segText] 0 [] = _
    rw [synthListF]
    rw [synthWithRetryF, if_neg (by omega)]
    have := retryLoop_exhaust eng s k segText 0 h1 hk s.max_retries 0 (by omega) (by omega)
      (f3 + 1) (by omega)
    rw [show (List.replicate 0 segText) = ([] : List Str) from rfl] at this
    rw [this]

/-- C1 as frozen is false at the boundary `k = max_retries`: with
`max_retries = 1` and an engine failing exactly once, the code retries and
succeeds (one chunk, two calls) where the claim demands propagation. -/
theorem claim_C1_counterexample :
    sampleSettings.max_retries ≤ 1 ∧
      synthesizeTextF 10 (retryKEngine 1) sampleSettings "Hi.".toList
        = some (List.replicate 2 "Hi.".toList, .ok [sampleChunk]) := by
  constructor
  · decide
  · decide

theorem claim_C1_retry_determinism_witness :
    synthesizeTextF 10 (retryKEngine 1) sampleSettings "Hi.".toList
      = some (List.replicate 2 "Hi.".toList, .ok [sampleChunk]) :=
  (claim_C1_retry_determinism (retryKEngine 1) sampleSettings 1 sampleChunk
    "Hi.".toList "Hi.".toList
    (fun i t hi => by simp [retryKEngine, hi])
    (fun t => by simp [retryKEngine])
    (by decide) (by decide) (by decide)).1 (by decide) 10 (by decide)

/-- C4: the `SPLIT` recursion always terminates and makes progress:
depth above 8 raises `SizeError "Maximum split depth exceeded."`; splitting
re-segments with the same bounded segmenter and uses its pieces when there
are more than one, falling back to the hard character-window split
otherwise; an empty split raises
`SizeError "Unable to split text for synthesis."`; and for every input and
every engine the step-indexed `synthesize_text` stabilises at a result in
finitely many steps. -/
theorem claim_C4_split_termination :
    (∀ fuel eng s text depth tr, 8 < depth →
      splitAndSynthF (fuel + 1) eng s text depth tr
        = some (tr, .error (.size "Maximum split depth exceeded.")))
    ∧ (∀ text s, 1 < (s.segCfg.segment text).length →
      splitText text s = (s.segCfg.segment text).map Segment.text)
    ∧ (∀ text s, ¬ 1 < (s.segCfg.segment text).length →
      splitText text s = hardSplit text s.max_chars)
    ∧ (∀ fuel eng s text depth tr, ¬ 8 < depth → splitText text s = [] →
      splitAndSynthF (fuel + 1) eng s text depth tr
        = some (tr, .error (.size "Unable to split text for synthesis.")))
    ∧ (∀ eng s text, ∃ n r, synthesizeTextF n eng s text = some r ∧
        ∀ m, n ≤ m → synthesizeTextF m eng s text = some r) := by
  refine ⟨?_, ?_, ?_, ?_, synthesizeTextF_exists⟩
  · intro fuel eng s text depth tr hd
    rw [splitAndSynthF, if_pos hd]
  · intro text s h
    rw [splitText]
    simp only [List.length_map]
    rw [if_pos h]
  · intro text s h
    rw [splitText]
    simp only [List.length_map]
    rw [if_neg h]
  · intro fuel eng s text depth tr hd hp
    rw [splitAndSynthF, if_neg hd]
    simp [hp]

theorem claim_C4_split_termination_witness :
    splitAndSynthF 1 okEngine sampleSettings "x".toList 9 []
        = some ([], .error (.size "Maximum split depth exceeded."))
      ∧ splitText [] sampleSettings = hardSplit [] sampleSettings.max_chars
      ∧ splitAndSynthF 1 okEngine sampleSettings [] 0 []
        = some ([], .error (.size "Unable to split text for synthesis.")) :=
  ⟨claim_C4_split_termination.1 0 okEngine sampleSettings "x".toList 9 [] (by decide),
   claim_C4_split_termination.2.2.1 [] sampleSettings (by decide),
   claim_C4_split_termination.2.2.2.1 0 okEngine sampleSettings [] 0 [] (by decide) (by decide)⟩

theorem segment_bang (cfg : SegCfg) (hmax : 4 ≤ cfg.max_chars)
    (hp : cfg.ensure_terminal_punctuation = true) :
    cfg.segment "!!!".toList = [⟨0, "!!!".toList⟩] := by
  have hhm : 4 ≤ cfg.hardMax := le_trans hmax (hardMax_ge cfg)
  have hhl : 3 ≤ cfg.hardLimit := by
    unfold SegCfg.hardLimit
    rw [hp]
    simp only [if_true]
    omega
  have hlen3 : ("!!!".toList).length = 3 := by decide
  have happ : cfg.appendPiece ⟨[], [], 0⟩ "!!!".toList = ⟨[], "!!!".toList, 0⟩ := by
    rw [SegCfg.appendPiece]
    rw [show pyStrip "!!!".toList = "!!!".toList from by decide]
    rw [if_neg (by decide)]
    rw [if_pos rfl]
  have hps : cfg.processSentence ⟨[], [], 0⟩ "!!!".toList = ⟨[], "!!!".toList, 0⟩ := by
    rw [SegCfg.processSentence, if_neg (by rw [hlen3]; omega), happ]
  have hflush : cfg.flush ⟨[], "!!!".toList, 0⟩ = ⟨[⟨0, "!!!".toList⟩], [], 1⟩ := by
    rw [SegCfg.flush]
    rw [show pyStrip "!!!".toList = "!!!".toList from by decide]
    rw [if_neg (by decide), hp]
    simp only [if_true]
    rw [show ensureTerminalSeg "!!!".toList = "!!!".toList from by decide]
    simp
  by_cases hmin : cfg.min_chars ≤ 3
  · have hpp : cfg.processParagraph ⟨[], [], 0⟩ "!!!".toList = ⟨[⟨0, "!!!".toList⟩], [], 1⟩ := by
      rw [SegCfg.processParagraph]
      rw [show splitSentences "!!!".toList = ["!!!".toList] from by decide]
      simp only [List.foldl]
      rw [hps]
      rw [if_pos (⟨by decide, by rw [hlen3]; exact hmin⟩ :
        (⟨[], "!!!".toList, 0⟩ : SegState).current ≠ [] ∧
          cfg.min_chars ≤ (⟨[], "!!!".toList, 0⟩ : SegState).current.length)]
      exact hflush
    rw [SegCfg.segment, if_neg (by decide)]
    rw [show splitParagraphs "!!!".toList = ["!!!".toList] from by decide]
    simp only [List.foldl]
    rw [hpp]
    rw [if_neg (by decide)]
  · have hpp : cfg.processParagraph ⟨[], [], 0⟩ "!!!".toList = ⟨[], "!!!".toList, 0⟩ := by
      rw [SegCfg.processParagraph]
      rw [show splitSentences "!!!".toList = ["!!!".toList] from by decide]
      simp only [List.foldl]
      rw [hps]
      rw [if_neg (by rintro ⟨-, hlen⟩; rw [hlen3] at hlen; omega)]
    rw [SegCfg.segment, if_neg (by decide)]
    rw [show splitParagraphs "!!!".toList = ["!!!".toList] from by decide]
    simp only [List.foldl]
    rw [hpp]
    rw [if_pos (by decide), hflush]

/-- C6: a segment on which the engine raises `TtsInputError` contributes
zero chunks after exactly one engine call, without propagating an error;
and on punctuation-only input (`"!!!"`, rejected by the engine's
`_is_speakable_text` check) `synthesize_text` returns the empty list after
a single engine invocation. -/
theorem claim_C6_input_skipping :
    (∀ fuel eng s (text : Str) depth tr, text.length ≤ s.max_chars →
      eng tr.length text = .inputError →
      synthWithRetryF (fuel + 2) eng s text depth tr = some (tr ++ [text], .ok []))
    ∧ (∀ fuel eng s, 4 ≤ s.max_chars →
      (∀ i t, isSpeakable t = false → eng i t = .inputError) →
      3 ≤ fuel →
      synthesizeTextF fuel eng s "!!!".toList = some (["!!!".toList], .ok [])) := by
  constructor
  · intro fuel eng s text depth tr hlen hcase
    rw [synthWithRetryF, if_neg (by omega)]
    rw [retryLoopF, hcase]
  · intro fuel eng s hmax heng hfuel
    obtain ⟨f1, rfl⟩ : ∃ f, fuel = f + 1 := ⟨fuel - 1, by omega⟩
    obtain ⟨f2, rfl⟩ : ∃ f, f1 = f + 1 := ⟨f1 - 1, by omega⟩
    obtain ⟨f3, rfl⟩ : ∃ f, f2 = f + 1 := ⟨f2 - 1, by omega⟩
    rw [synthesizeTextF, if_neg (by decide)]
    have hseg : s.segCfg.segment "!!!".toList = [⟨0, "!!!".toList⟩] :=
      segment_bang s.segCfg hmax rfl
    rw [hseg]
    show synthListF (f3 + 1 + 1 + 1) eng s ["!!!".toList] 0 [] = _
    rw [synthListF]
    rw [synthWithRetryF, if_neg (by rw [show ("!!!".toList).length = 3 from by decide]; omega)]
    rw [retryLoopF]
    simp only [List.length_nil]
    rw [heng 0 "!!!".toList (by decide)]
    simp [synthListF]

theorem claim_C6_input_skipping_witness :
    synthWithRetryF 2 skipEngine sampleSettings "!!!".toList 0 []
        = some (["!!!".toList], .ok [])
      ∧ synthesizeTextF 3 skipEngine sampleSettings "!!!".toList
        = some (["!!!".toList], .ok []) :=
  ⟨by
    have h := claim_C6_input_skipping.1 0 skipEngine sampleSettings "!!!".toList 0 []
      (by decide) (by decide)
    simpa using h,
   claim_C6_input_skipping.2 3 skipEngine sampleSettings (by decide)
    (fun i t ht => by simp [skipEngine, ht]) (by decide)⟩


theorem claim_C5_engine_input_bound_witness :
    ("Hi.".toList).length ≤ sampleSettings.max_chars :=
  claim_C5_engine_input_bound 10 okEngine sampleSettings "Hi.".toList ["Hi.".toList]
    (.ok [sampleChunk]) (by decide) "Hi.".toList (by decide)
/-- C10: `__post_init__` raises exactly when `max_chars ≤ 0`, `min_chars`
is negative, `min_chars > max_chars`, or (with punctuation enforcement on)
`max_chars < 2`; a `hard_max_chars` smaller than `max_chars` is accepted
and silently clamped, `_hard_max` being `max(max_chars, hard_max_chars)`
(or `int(max_chars * 1.25)` when unset); every successfully constructed
segmenter therefore satisfies `max_chars ≤ _hard_max`. -/
theorem claim_C10_construction :
    (∀ mc mn : Int, ∀ p : Bool,
      postInitOk mc mn p = false ↔ (mc ≤ 0 ∨ mn < 0 ∨ mc < mn ∨ (p = true ∧ mc < 2)))
    ∧ (∀ mc h : Int, hardMaxInt mc (some h) = max mc h)
    ∧ (∀ mc : Int, hardMaxInt mc none = Int.tdiv (5 * mc) 4)
    ∧ (∀ mc mn : Int, ∀ p : Bool, ∀ hm : Option Int,
        postInitOk mc mn p = true → mc ≤ hardMaxInt mc hm)
    ∧ (∀ cfg : SegCfg,
        postInitOk (cfg.max_chars : Int) (cfg.min_chars : Int) cfg.ensure_terminal_punctuation
            = true ↔ cfg.Valid) := by
  refine ⟨?_, fun _ _ => rfl, fun _ => rfl, ?_, ?_⟩
  · intro mc mn p
    unfold postInitOk
    cases p <;> simp <;> omega
  · intro mc mn p hm h
    have h1 : 0 < mc := by
      unfold postInitOk at h
      by_contra h2
      simp [show mc ≤ 0 by omega] at h
    cases hm with
    | none => exact tdiv_five_quarter_ge mc h1
    | some hmv => exact le_max_left _ _
  · intro cfg
    unfold postInitOk SegCfg.Valid
    cases h : cfg.ensure_terminal_punctuation <;> simp <;> omega

theorem claim_C10_construction_witness :
    ((100 : Int) ≤ hardMaxInt 100 (some 50)) ∧ ((100 : Int) ≤ hardMaxInt 100 none) :=
  ⟨claim_C10_construction.2.2.2.1 100 10 true (some 50) (by decide),
   claim_C10_construction.2.2.2.1 100 10 true none (by decide)⟩

/-- C3: `chunk_cache_key` is a pure function of its arguments (determinism
is intrinsic to the functional embedding); `None` and `""` agree for each
of `voice`, `lang_code`, `ref_audio_id`, `ref_text`; speeds that round
equal at four decimal places give equal keys; and the result is always
`"tts_"` followed by 64 lowercase hex digits of the SHA-256 of the
canonical JSON payload. -/
theorem claim_C3_cache_key :
    (∀ text mid lc rid rt sp sr ch,
       chunk_cache_key text mid none lc rid rt sp sr ch
         = chunk_cache_key text mid (some []) lc rid rt sp sr ch)
    ∧ (∀ text mid v rid rt sp sr ch,
       chunk_cache_key text mid v none rid rt sp sr ch
         = chunk_cache_key text mid v (some []) rid rt sp sr ch)
    ∧ (∀ text mid v lc rt sp sr ch,
       chunk_cache_key text mid v lc none rt sp sr ch
         = chunk_cache_key text mid v lc (some []) rt sp sr ch)
    ∧ (∀ text mid v lc rid sp sr ch,
       chunk_cache_key text mid v lc rid none sp sr ch
         = chunk_cache_key text mid v lc rid (some []) sp sr ch)
    ∧ (∀ text mid v lc rid rt sr ch, ∀ sp₁ sp₂ : ℚ, round4 sp₁ = round4 sp₂ →
       chunk_cache_key text mid v lc rid rt sp₁ sr ch
         = chunk_cache_key text mid v lc rid rt sp₂ sr ch)
    ∧ (∀ text mid v lc rid rt sp sr ch, ∃ d : Str,
       chunk_cache_key text mid v lc rid rt sp sr ch = 't' :: 't' :: 's' :: '_' :: d ∧
       d.length = 64 ∧ ∀ c ∈ d, ("0123456789abcdef".toList).contains c = true) := by
  refine ⟨fun _ _ _ _ _ _ _ _ => rfl, fun _ _ _ _ _ _ _ _ => rfl,
    fun _ _ _ _ _ _ _ _ => rfl, fun _ _ _ _ _ _ _ _ => rfl, ?_, ?_⟩
  · intro text mid v lc rid rt sr ch sp₁ sp₂ h
    unfold chunk_cache_key
    rw [h]
  · intro text mid v lc rid rt sp sr ch
    exact ⟨_, rfl, sha256hex_length _, sha256hex_mem _⟩

theorem claim_C3_cache_key_witness :
    round4 (Rat.divInt 100001 100000) = round4 (Rat.divInt 1 1) ∧
      chunk_cache_key "Test text".toList "test-model".toList (some "default".toList)
          (some "en".toList) none none (Rat.divInt 100001 100000) 24000 1
        = chunk_cache_key "Test text".toList "test-model".toList (some "default".toList)
          (some "en".toList) none none (Rat.divInt 1 1) 24000 1 :=
  ⟨by decide, claim_C3_cache_key.2.2.2.2.1 _ _ _ _ _ _ _ _ _ _ (by decide)⟩

/-- C9: re-running over unchanged text is idempotent: the orchestrator's
output path is a fixed function of the cache key, and when the engine
config carries an `output_path` that exists as a non-empty file,
`MlxTtsEngine.synthesize` returns a chunk referencing that path with its
measured duration — no model load, no rendering, file system unchanged. -/
theorem claim_C9_idempotent_rerun :
    (∀ text s rv rl root fmt,
      resolveOutputPath text s rv rl (some root) none fmt
        = some (chunkPath root (chunk_cache_key text s.model_id rv rl
            s.ref_audio_id s.ref_text s.speed s.sample_rate s.channels) fmt))
    ∧ (∀ render fs eng text voice cfg p n,
      isSpeakable text = true →
      (∀ m, eng.max_input_chars = some m → text.length ≤ m) →
      cfg.output_path = some p → fs.size p = some n → 0 < n →
      mlxSynthesize render fs eng text voice cfg
        = ⟨.ok ⟨0, p, fs.durationMs p⟩, eng, fs, false⟩) := by
  constructor
  · intro text s rv rl root fmt
    simp [resolveOutputPath]
  · intro render fs eng text voice cfg p n hspeak hmax hpath hsize hn
    have hm : (match eng.max_input_chars with
        | some m => decide (m < text.length)
        | none => false) = false := by
      cases hcase : eng.max_input_chars with
      | none => rfl
      | some m => simp [Nat.not_lt.2 (hmax m hcase)]
    unfold mlxSynthesize
    simp only [hspeak, hm, hpath, Bool.not_true, Bool.false_eq_true, if_false]
    rw [hsize]
    simp [hn, hm]


theorem claim_C9_idempotent_rerun_witness :
    mlxSynthesize (fun _ => 0) sampleFs sampleMlx "Hello.".toList none
        ⟨some "cache/tts/chunks/aa/x.wav".toList⟩
      = ⟨.ok ⟨0, "cache/tts/chunks/aa/x.wav".toList,
          sampleFs.durationMs "cache/tts/chunks/aa/x.wav".toList⟩,
        sampleMlx, sampleFs, false⟩ :=
  claim_C9_idempotent_rerun.2 (fun _ => 0) sampleFs sampleMlx "Hello.".toList none
    ⟨some "cache/tts/chunks/aa/x.wav".toList⟩ "cache/tts/chunks/aa/x.wav".toList 4096
    (by decide) (fun m h => Option.noConfusion h) rfl (by decide) (by decide)

/-! ## String-model lemmas -/

theorem dropWhile_length_le (p : Char → Bool) (l : Str) :
    (l.dropWhile p).length ≤ l.length := by
  induction l with
  | nil => simp
  | cons c rest ih =>
    rw [List.dropWhile_cons]
    split
    · exact le_trans ih (by simp)
    · simp

theorem dropWhile_head_not (p : Char → Bool) (l : Str) (c : Char)
    (h : (l.dropWhile p).head? = some c) : p c = false := by
  induction l with
  | nil => simp at h
  | cons d rest ih =>
    rw [List.dropWhile_cons] at h
    split at h
    · exact ih h
    · simp only [List.head?_cons, Option.some.injEq] at h
      subst h
      simp_all

theorem dropWhile_eq_self_of_head (p : Char → Bool) (l : Str)
    (h : ∀ c, l.head? = some c → p c = false) : l.dropWhile p = l := by
  cases l with
  | nil => rfl
  | cons c rest =>
    rw [List.dropWhile_cons, if_neg]
    simp [h c rfl]

theorem mem_of_mem_dropWhile (p : Char → Bool) (l : Str) (c : Char)
    (h : c ∈ l.dropWhile p) : c ∈ l :=
  (List.dropWhile_sublist p).mem h

theorem mem_dropWhile_of_not (p : Char → Bool) (l : Str) (c : Char)
    (hm : c ∈ l) (hp : p c = false) : c ∈ l.dropWhile p := by
  induction l with
  | nil => simp at hm
  | cons d rest ih =>
    rw [List.dropWhile_cons]
    split
    · rcases List.mem_cons.1 hm with rfl | hm'
      · simp_all
      · exact ih hm'
    · exact hm

theorem dropTrail_getLast_not (p : Char → Bool) (l : Str) (c : Char)
    (h : (dropTrail p l).getLast? = some c) : p c = false := by
  rw [dropTrail, ← List.head?_reverse, List.reverse_reverse] at h
  exact dropWhile_head_not p l.reverse c h

theorem dropTrail_append_eat (p : Char → Bool) (l : Str) :
    dropTrail p l ++ (l.reverse.takeWhile p).reverse = l := by
  rw [dropTrail]
  rw [show (l.reverse.dropWhile p).reverse ++ (l.reverse.takeWhile p).reverse
      = (l.reverse.takeWhile p ++ l.reverse.dropWhile p).reverse from by
    rw [List.reverse_append]]
  rw [List.takeWhile_append_dropWhile, List.reverse_reverse]

theorem dropTrail_head? (p : Char → Bool) (l : Str) (h : dropTrail p l ≠ []) :
    (dropTrail p l).head? = l.head? := by
  conv_rhs => rw [← dropTrail_append_eat p l]
  rw [List.head?_append_of_ne_nil _ h]

theorem dropTrail_length_le (p : Char → Bool) (l : Str) :
    (dropTrail p l).length ≤ l.length := by
  rw [dropTrail, List.length_reverse]
  exact le_trans (dropWhile_length_le p l.reverse) (by simp)

theorem dropTrail_eq_self_of_getLast (p : Char → Bool) (l : Str)
    (h : ∀ c, l.getLast? = some c → p c = false) : dropTrail p l = l := by
  rw [dropTrail, dropWhile_eq_self_of_head, List.reverse_reverse]
  intro c hc
  rw [List.head?_reverse] at hc
  exact h c hc

theorem mem_of_mem_dropTrail (p : Char → Bool) (l : Str) (c : Char)
    (h : c ∈ dropTrail p l) : c ∈ l := by
  rw [dropTrail, List.mem_reverse] at h
  have := mem_of_mem_dropWhile p l.reverse c h
  simpa using this

theorem mem_dropTrail_of_not (p : Char → Bool) (l : Str) (c : Char)
    (hm : c ∈ l) (hp : p c = false) : c ∈ dropTrail p l := by
  rw [dropTrail, List.mem_reverse]
  exact mem_dropWhile_of_not p l.reverse c (by simpa using hm) hp

theorem dropTrail_eq_nil_iff (p : Char → Bool) (l : Str) :
    dropTrail p l = [] ↔ ∀ c ∈ l, p c = true := by
  rw [dropTrail]
  rw [List.reverse_eq_nil_iff, List.dropWhile_eq_nil_iff]
  constructor
  · intro h c hc; exact h c (by simpa using hc)
  · intro h c hc; exact h c (by simpa using hc)

/-! ## `pyStrip` -/

theorem pyStrip_strippedStr (s : Str) : StrippedStr (pyStrip s) := by
  constructor
  · intro c hc
    by_cases hnil : pyStrip s = []
    · rw [hnil] at hc; simp at hc
    · rw [pyStrip] at hc hnil
      rw [dropTrail_head? isWs _ hnil] at hc
      exact dropWhile_head_not isWs s c hc
  · intro c hc
    exact dropTrail_getLast_not isWs _ c hc

theorem pyStrip_eq_self (s : Str) (h : StrippedStr s) : pyStrip s = s := by
  rw [pyStrip, dropWhile_eq_self_of_head isWs s h.1, dropTrail_eq_self_of_getLast isWs s h.2]

theorem pyStrip_idem (s : Str) : pyStrip (pyStrip s) = pyStrip s :=
  pyStrip_eq_self _ (pyStrip_strippedStr s)

theorem pyStrip_length_le (s : Str) : (pyStrip s).length ≤ s.length :=
  le_trans (dropTrail_length_le isWs _) (dropWhile_length_le isWs s)

theorem mem_of_mem_pyStrip {s : Str} {c : Char} (h : c ∈ pyStrip s) : c ∈ s :=
  mem_of_mem_dropWhile isWs s c (mem_of_mem_dropTrail isWs _ c h)

theorem mem_pyStrip_of_not_ws {s : Str} {c : Char} (hm : c ∈ s) (hp : isWs c = false) :
    c ∈ pyStrip s :=
  mem_dropTrail_of_not isWs _ c (mem_dropWhile_of_not isWs s c hm hp) hp

theorem pyStrip_eq_nil_iff (s : Str) : pyStrip s = [] ↔ ∀ c ∈ s, isWs c = true := by
  constructor
  · intro h c hc
    by_contra hws
    have := mem_pyStrip_of_not_ws hc (by simpa using hws)
    rw [h] at this
    simp at this
  · intro h
    rw [pyStrip, dropTrail_eq_nil_iff]
    intro c hc
    exact h c (mem_of_mem_dropWhile isWs s c hc)

theorem pyStrip_ne_nil_of_solid {s : Str} (h : HasSolid s) : pyStrip s ≠ [] := by
  obtain ⟨c, hc, hws⟩ := h
  intro hnil
  rw [pyStrip_eq_nil_iff] at hnil
  rw [hnil c hc] at hws
  simp at hws

theorem solid_of_pyStrip_ne_nil {s : Str} (h : pyStrip s ≠ []) : HasSolid s := by
  by_contra hns
  apply h
  rw [pyStrip_eq_nil_iff]
  intro c hc
  by_contra hws
  exact hns ⟨c, hc, by simpa using hws⟩

theorem strippedStr_nows {s : Str} (h : NoWs s) : StrippedStr s := by
  constructor
  · intro c hc
    exact h c (by cases s <;> simp_all)
  · intro c hc
    exact h c (List.mem_of_mem_getLast? hc)

theorem nows_pyStrip {s : Str} (h : NoWs s) : NoWs (pyStrip s) :=
  fun c hc => h c (mem_of_mem_pyStrip hc)

theorem strippedStr_ne_nil_solid {s : Str} (hs : StrippedStr s) (hne : s ≠ []) :
    HasSolid s := by
  cases s with
  | nil => exact absurd rfl hne
  | cons c rest => exact ⟨c, by simp, hs.1 c rfl⟩

/-! ## Stripped concatenation -/

theorem strippedStr_append {a b : Str} (ha : StrippedStr a) (hb : StrippedStr b)
    (hna : a ≠ []) (hnb : b ≠ []) : StrippedStr (a ++ ' ' :: b) := by
  constructor
  · intro c hc
    rw [List.head?_append_of_ne_nil _ hna] at hc
    exact ha.1 c hc
  · intro c hc
    rw [List.getLast?_append_of_ne_nil _ (by simp)] at hc
    rw [show (' ' :: b).getLast? = b.getLast? from by
      rw [show ' ' :: b = [' '] ++ b from rfl]
      exact List.getLast?_append_of_ne_nil _ hnb] at hc
    exact hb.2 c hc

theorem strippedStr_append_dot {t : Str} (ht : StrippedStr t) :
    StrippedStr (t ++ ['.']) := by
  constructor
  · intro c hc
    cases t with
    | nil => simp at hc; subst hc; decide
    | cons d rest =>
      rw [List.head?_append_of_ne_nil _ (by simp)] at hc
      exact ht.1 c hc
  · intro c hc
    rw [List.getLast?_append_of_ne_nil _ (by simp)] at hc
    simp at hc
    subst hc
    decide

theorem endsTerminal_append_dot (t : Str) : endsTerminal (t ++ ['.']) = true := by
  rw [endsTerminal]
  rw [dropTrail_eq_self_of_getLast isCloser _ (by
    intro c hc
    rw [List.getLast?_append_of_ne_nil _ (by simp)] at hc
    simp at hc
    subst hc
    decide)]
  rw [List.getLast?_append_of_ne_nil _ (by simp)]
  simp
  decide

/-! ## Limit arithmetic -/

theorem maxLimit_le_hardLimit (cfg : SegCfg) : cfg.maxLimit ≤ cfg.hardLimit := by
  have := hardMax_ge cfg
  unfold SegCfg.maxLimit SegCfg.hardLimit
  cases cfg.ensure_terminal_punctuation <;> simp <;> omega

theorem hardLimit_le_emitBound (cfg : SegCfg) : cfg.hardLimit ≤ emitBound cfg := by
  unfold emitBound
  omega

/-! ## The emitted-segment discipline of `flush` -/

theorem flush_current (cfg : SegCfg) (st : SegState) : (cfg.flush st).current = [] := by
  rw [SegCfg.flush]
  split <;> rfl

theorem flush_segments (cfg : SegCfg) (st : SegState) :
    ∃ l, (cfg.flush st).segments = st.segments ++ l := by
  rw [SegCfg.flush]
  split
  · exact ⟨[], by simp⟩
  · exact ⟨_, rfl⟩

theorem emit_ok (cfg : SegCfg) (cur : Str) (hstr : StrippedStr cur) (hne : cur ≠ [])
    (hsize : cur.length ≤ cfg.hardLimit ∨ (NoWs cur ∧ cfg.hardLimit < cur.length)) :
    SegEmitOK cfg (if cfg.ensure_terminal_punctuation then ensureTerminalSeg cur else cur)
      ∧ SizeOKSeg cfg (if cfg.ensure_terminal_punctuation then ensureTerminalSeg cur else cur) := by
  by_cases hp : cfg.ensure_terminal_punctuation = true
  · rw [if_pos hp]
    rw [ensureTerminalSeg]
    by_cases hterm : endsTerminal cur = true
    · rw [if_pos hterm]
      refine ⟨⟨hne, hstr, fun _ => hterm⟩, ?_⟩
      rcases hsize with h | ⟨hn, hlt⟩
      · exact Or.inl (le_trans h (hardLimit_le_emitBound cfg))
      · exact Or.inr ⟨cur, hn, hlt, Or.inl rfl⟩
    · rw [if_neg hterm]
      refine ⟨⟨by simp, strippedStr_append_dot hstr, fun _ => endsTerminal_append_dot cur⟩, ?_⟩
      rcases hsize with h | ⟨hn, hlt⟩
      · refine Or.inl ?_
        rw [List.length_append]
        unfold emitBound
        rw [if_pos hp]
        simp
        omega
      · exact Or.inr ⟨cur, hn, hlt, Or.inr rfl⟩
  · rw [if_neg hp]
    refine ⟨⟨hne, hstr, fun hcontra => absurd hcontra hp⟩, ?_⟩
    rcases hsize with h | ⟨hn, hlt⟩
    · exact Or.inl (le_trans h (hardLimit_le_emitBound cfg))
    · exact Or.inr ⟨cur, hn, hlt, Or.inl rfl⟩

theorem flush_inv (cfg : SegCfg) (st : SegState) (h : StInv cfg st) :
    StInv cfg (cfg.flush st) := by
  obtain ⟨hcur, hsegs⟩ := h
  rw [SegCfg.flush]
  by_cases hch : pyStrip st.current = []
  · rw [if_pos hch]
    exact ⟨Or.inl rfl, hsegs⟩
  · rw [if_neg hch]
    rcases hcur with hc0 | ⟨hstr, hne, hsize⟩
    · exact absurd (by rw [hc0]; rfl : pyStrip st.current = []) hch
    · show StInv cfg
        { segments := st.segments ++ [⟨st.index,
            if cfg.ensure_terminal_punctuation then ensureTerminalSeg (pyStrip st.current)
            else pyStrip st.current⟩],
          current := [], index := st.index + 1 }
      rw [pyStrip_eq_self _ hstr]
      refine ⟨Or.inl rfl, ?_⟩
      intro sg hsg
      rcases List.mem_append.1 hsg with hsg | hsg
      · exact hsegs sg hsg
      · simp only [List.mem_singleton] at hsg
        subst hsg
        exact emit_ok cfg st.current hstr hne hsize

theorem flush_productive (cfg : SegCfg) (st : SegState) (h : StInv cfg st)
    (hp : Productive st) : Productive (cfg.flush st) := by
  rcases hp with hp | hp
  · obtain ⟨l, hl⟩ := flush_segments cfg st
    left
    rw [hl]
    intro habs
    rw [List.append_eq_nil] at habs
    exact hp habs.1
  · rcases h.1 with hc0 | ⟨hstr, hne, -⟩
    · exact absurd hc0 hp
    · left
      rw [SegCfg.flush, if_neg (by rw [pyStrip_eq_self _ hstr]; exact hne)]
      simp

/-! ## `append_piece` -/

theorem pieceOK_pyStrip {cfg : SegCfg} {p : Str} (h : PieceOK cfg p) :
    PieceOK cfg (pyStrip p) := by
  rcases h with h | h
  · exact Or.inl (le_trans (pyStrip_length_le p) h)
  · exact Or.inr (nows_pyStrip h)

theorem curOK_of_piece {cfg : SegCfg} {p : Str} (hne : pyStrip p ≠ [])
    (hp : PieceOK cfg p) : CurOK cfg (pyStrip p) := by
  refine Or.inr ⟨pyStrip_strippedStr p, hne, ?_⟩
  rcases pieceOK_pyStrip hp with h | h
  · exact Or.inl h
  · by_cases hl : (pyStrip p).length ≤ cfg.hardLimit
    · exact Or.inl hl
    · exact Or.inr ⟨h, by omega⟩

theorem appendPiece_inv (cfg : SegCfg) (st : SegState) (piece : Str)
    (hst : StInv cfg st) (hp : PieceOK cfg piece) :
    StInv cfg (cfg.appendPiece st piece) := by
  rw [SegCfg.appendPiece]
  simp only
  split_ifs with h1 h2 h3 h4
  · exact hst
  · exact ⟨curOK_of_piece h1 hp, hst.2⟩
  · rcases hst.1 with hc0 | ⟨hstr, hne, hsize⟩
    · exact absurd hc0 h2
    · refine ⟨Or.inr ⟨strippedStr_append hstr (pyStrip_strippedStr piece) hne h1, by simp, ?_⟩,
        hst.2⟩
      exact Or.inl (le_trans h3 (maxLimit_le_hardLimit cfg))
  · rcases hst.1 with hc0 | ⟨hstr, hne, hsize⟩
    · exact absurd hc0 h2
    · exact ⟨Or.inr ⟨strippedStr_append hstr (pyStrip_strippedStr piece) hne h1, by simp,
        Or.inl h4.2⟩, hst.2⟩
  · have hf := flush_inv cfg st hst
    exact ⟨curOK_of_piece h1 hp, hf.2⟩

theorem appendPiece_segments (cfg : SegCfg) (st : SegState) (piece : Str) :
    ∃ l, (cfg.appendPiece st piece).segments = st.segments ++ l := by
  rw [SegCfg.appendPiece]
  simp only
  split_ifs
  · exact ⟨[], by simp⟩
  · exact ⟨[], by simp⟩
  · exact ⟨[], by simp⟩
  · exact ⟨[], by simp⟩
  · obtain ⟨l, hl⟩ := flush_segments cfg st
    exact ⟨l, hl⟩

theorem appendPiece_keeps (cfg : SegCfg) (st : SegState) (piece : Str)
    (h : st.current ≠ []) : (cfg.appendPiece st piece).current ≠ [] := by
  rw [SegCfg.appendPiece]
  simp only
  split_ifs <;> simp_all

theorem appendPiece_establish (cfg : SegCfg) (st : SegState) (piece : Str)
    (h : pyStrip piece ≠ []) : (cfg.appendPiece st piece).current ≠ [] := by
  rw [SegCfg.appendPiece]
  simp only
  split_ifs <;> simp_all

theorem appendPiece_productive (cfg : SegCfg) (st : SegState) (piece : Str)
    (hst : StInv cfg st) (h : Productive st) :
    Productive (cfg.appendPiece st piece) := by
  rcases h with h | h
  · left
    obtain ⟨l, hl⟩ := appendPiece_segments cfg st piece
    rw [hl]
    intro habs
    rw [List.append_eq_nil] at habs
    exact h habs.1
  · exact Or.inr (appendPiece_keeps cfg st piece h)

/-! ## `_split_long_sentence` -/

theorem foldl_preserve {α β : Type} {P : β → Prop} {Q : α → Prop} (f : β → α → β)
    (hf : ∀ b a, P b → Q a → P (f b a)) :
    ∀ (l : List α) (b : β), P b → (∀ a ∈ l, Q a) → P (l.foldl f b) := by
  intro l
  induction l with
  | nil => intro b hb _; exact hb
  | cons a rest ih =>
    intro b hb hq
    exact ih (f b a) (hf b a hb (hq a (by simp))) (fun x hx => hq x (by simp [hx]))

theorem chunksOfGo_subset (size : Nat) :
    ∀ (fuel : Nat) (s : Str), ∀ p ∈ chunksOfGo size fuel s, ∀ c ∈ p, c ∈ s := by
  intro fuel
  induction fuel with
  | zero =>
    intro s p hp c hc
    cases s with
    | nil => simp [chunksOfGo] at hp
    | cons d rest =>
      simp only [chunksOfGo, List.mem_singleton] at hp
      subst hp
      exact hc
  | succ fuel ih =>
    intro s p hp c hc
    cases s with
    | nil => simp [chunksOfGo] at hp
    | cons d rest =>
      simp only [chunksOfGo] at hp
      rcases List.mem_cons.1 hp with rfl | hp'
      · exact List.mem_of_mem_take hc
      · exact List.mem_of_mem_drop (ih _ p hp' c hc)

theorem splitLongWord_nows (cfg : SegCfg) (word : Str) (hw : NoWs word) :
    ∀ p ∈ cfg.splitLongWord word, NoWs p := by
  intro p hp c hc
  exact hw c (chunksOfGo_subset cfg.hardLimit word.length word p hp c hc)

theorem pyWordsGo_words :
    ∀ (s acc : Str), (∀ c ∈ acc, isWs c = false) →
      ∀ w ∈ pyWordsGo s acc, w ≠ [] ∧ NoWs w := by
  intro s
  induction s with
  | nil =>
    intro acc hacc w hw
    rw [pyWordsGo] at hw
    split at hw
    · simp at hw
    · simp only [List.mem_singleton] at hw
      subst hw
      refine ⟨by simpa using by assumption, fun c hc => hacc c (by simpa using hc)⟩
  | cons d rest ih =>
    intro acc hacc w hw
    rw [pyWordsGo] at hw
    split at hw
    · split at hw
      · exact ih [] (by simp) w hw
      · rcases List.mem_cons.1 hw with rfl | hw'
        · refine ⟨by simpa using by assumption, fun c hc => hacc c (by simpa using hc)⟩
        · exact ih [] (by simp) w hw'
    · rename_i hws
      refine ih (d :: acc) ?_ w hw
      intro c hc
      rcases List.mem_cons.1 hc with rfl | hc'
      · exact (Bool.not_eq_true _) ▸ hws
      · exact hacc c hc'

theorem pyWords_words (s : Str) : ∀ w ∈ pyWords s, w ≠ [] ∧ NoWs w :=
  pyWordsGo_words s [] (by simp)

theorem longSentStep_ok (cfg : SegCfg) (acc : List Str × Str) (word : Str)
    (hacc : LongAcc cfg acc) (hw : word ≠ [] ∧ NoWs word) :
    LongAcc cfg (cfg.longSentStep acc word) := by
  obtain ⟨pieces, current⟩ := acc
  obtain ⟨hpieces, hcur⟩ := hacc
  rw [SegCfg.longSentStep]
  simp only
  split_ifs with h1 h2 h3
  · exact ⟨hpieces, Or.inr (Or.inr hw.2)⟩
  · exact ⟨hpieces, Or.inr (Or.inl h2)⟩
  · refine ⟨?_, Or.inl rfl⟩
    intro p hp
    rcases List.mem_append.1 hp with hp' | hp'
    · rcases List.mem_append.1 hp' with hp'' | hp''
      · exact hpieces p hp''
      · simp only [List.mem_singleton] at hp''
        subst hp''
        rcases hcur with hc0 | hc
        · exact absurd hc0 h1
        · exact hc
    · exact Or.inr (splitLongWord_nows cfg word hw.2 p hp')
  · refine ⟨?_, Or.inr (Or.inr hw.2)⟩
    intro p hp
    rcases List.mem_append.1 hp with hp' | hp'
    · exact hpieces p hp'
    · simp only [List.mem_singleton] at hp'
      subst hp'
      rcases hcur with hc0 | hc
      · exact absurd hc0 h1
      · exact hc

theorem splitLongSentence_ok (cfg : SegCfg) (s : Str) :
    ∀ p ∈ cfg.splitLongSentence s, PieceOK cfg p := by
  intro p hp
  rw [SegCfg.splitLongSentence] at hp
  have hfold : LongAcc cfg ((pyWords s).foldl cfg.longSentStep ([], [])) :=
    foldl_preserve cfg.longSentStep (fun b a hb ha => longSentStep_ok cfg b a hb ha)
      (pyWords s) ([], []) ⟨by simp, Or.inl rfl⟩ (pyWords_words s)
  set acc := (pyWords s).foldl cfg.longSentStep ([], []) with hacc
  obtain ⟨pieces, current⟩ := acc
  obtain ⟨hpieces, hcur⟩ := hfold
  simp only at hp hpieces hcur
  split at hp
  · exact hpieces p hp
  · rename_i hcne
    rcases List.mem_append.1 hp with hp' | hp'
    · exact hpieces p hp'
    · simp only [List.mem_singleton] at hp'
      subst hp'
      rcases hcur with hc0 | hc
      · exact absurd hc0 hcne
      · exact hc

/-! ## `_split_sentences` output discipline -/

theorem sentGo_mem : ∀ (s acc : Str) (mode : Nat),
    ∀ t ∈ sentGo s acc mode, t ≠ [] ∧ pyStrip t = t := by
  intro s
  induction s with
  | nil =>
    intro acc mode t ht
    rw [sentGo] at ht
    cases hps : pyStrip acc.reverse with
    | nil => rw [hps] at ht; simp at ht
    | cons hd tl =>
      rw [hps] at ht
      simp only [List.mem_singleton] at ht
      subst ht
      exact ⟨by simp, by rw [← hps, pyStrip_idem]⟩
  | cons c rest ih =>
    intro acc mode t ht
    rw [sentGo] at ht
    by_cases h0 : mode = 0
    · rw [if_pos h0] at ht
      split at ht <;> exact ih _ _ t ht
    · rw [if_neg h0] at ht
      by_cases h1 : mode = 1
      · rw [if_pos h1] at ht
        by_cases hsp : isSentPunct c = true
        · rw [if_pos hsp] at ht; exact ih _ _ t ht
        · rw [if_neg hsp] at ht
          by_cases hcl : isCloser c = true
          · rw [if_pos hcl] at ht; exact ih _ _ t ht
          · rw [if_neg hcl] at ht
            cases hps : pyStrip acc.reverse with
            | nil => rw [hps] at ht; exact ih _ _ t ht
            | cons hd tl =>
              rw [hps] at ht
              rcases List.mem_cons.1 ht with rfl | ht'
              · exact ⟨by simp, by rw [← hps, pyStrip_idem]⟩
              · exact ih _ _ t ht'
      · rw [if_neg h1] at ht
        by_cases hcl : isCloser c = true
        · rw [if_pos hcl] at ht; exact ih _ _ t ht
        · rw [if_neg hcl] at ht
          cases hps : pyStrip acc.reverse with
          | nil => rw [hps] at ht; exact ih _ _ t ht
          | cons hd tl =>
            rw [hps] at ht
            rcases List.mem_cons.1 ht with rfl | ht'
            · exact ⟨by simp, by rw [← hps, pyStrip_idem]⟩
            · exact ih _ _ t ht'

theorem splitSentences_mem (s : Str) :
    ∀ t ∈ splitSentences s, t ≠ [] ∧ pyStrip t = t :=
  sentGo_mem s [] 0

theorem hasSolid_shift {acc rest : Str} {c : Char}
    (h : HasSolid (acc.reverse ++ c :: rest)) :
    HasSolid ((c :: acc).reverse ++ rest) := by
  obtain ⟨x, hx, hxw⟩ := h
  refine ⟨x, ?_, hxw⟩
  simp only [List.mem_append, List.mem_reverse, List.mem_cons] at hx ⊢
  tauto

theorem hasSolid_reset {acc rest : Str} {c : Char}
    (h : HasSolid (acc.reverse ++ c :: rest))
    (hacc : ∀ x ∈ acc.reverse, isWs x = true) :
    HasSolid ([c].reverse ++ rest) := by
  obtain ⟨x, hx, hxw⟩ := h
  rcases List.mem_append.1 hx with hx' | hx'
  · rw [hacc x hx'] at hxw; cases hxw
  · exact ⟨x, by simpa using hx', hxw⟩

theorem sentGo_ne_nil : ∀ (s acc : Str) (mode : Nat),
    HasSolid (acc.reverse ++ s) → sentGo s acc mode ≠ [] := by
  intro s
  induction s with
  | nil =>
    intro acc mode h
    rw [sentGo]
    have : pyStrip acc.reverse ≠ [] := by
      apply pyStrip_ne_nil_of_solid
      simpa using h
    cases hps : pyStrip acc.reverse with
    | nil => exact absurd hps this
    | cons hd tl => simp
  | cons c rest ih =>
    intro acc mode h
    rw [sentGo]
    by_cases h0 : mode = 0
    · rw [if_pos h0]
      split <;> exact ih _ _ (hasSolid_shift h)
    · rw [if_neg h0]
      by_cases h1 : mode = 1
      · rw [if_pos h1]
        by_cases hsp : isSentPunct c = true
        · rw [if_pos hsp]; exact ih _ _ (hasSolid_shift h)
        · rw [if_neg hsp]
          by_cases hcl : isCloser c = true
          · rw [if_pos hcl]; exact ih _ _ (hasSolid_shift h)
          · rw [if_neg hcl]
            cases hps : pyStrip acc.reverse with
            | nil =>
              apply ih
              exact hasSolid_reset h (by
                intro x hx
                exact (pyStrip_eq_nil_iff acc.reverse).1 hps x hx)
            | cons hd tl => simp
      · rw [if_neg h1]
        by_cases hcl : isCloser c = true
        · rw [if_pos hcl]; exact ih _ _ (hasSolid_shift h)
        · rw [if_neg hcl]
          cases hps : pyStrip acc.reverse with
          | nil =>
            apply ih
            exact hasSolid_reset h (by
              intro x hx
              exact (pyStrip_eq_nil_iff acc.reverse).1 hps x hx)
          | cons hd tl => simp

theorem splitSentences_ne_nil {s : Str} (h : HasSolid s) : splitSentences s ≠ [] :=
  sentGo_ne_nil s [] 0 (by simpa using h)

/-! ## Productivity of `_split_long_sentence` -/

theorem chunksOfGo_flatten (size : Nat) :
    ∀ (fuel : Nat) (s : Str), (chunksOfGo size fuel s).flatten = s := by
  intro fuel
  induction fuel with
  | zero =>
    intro s
    cases s with
    | nil => simp [chunksOfGo]
    | cons d rest => simp [chunksOfGo]
  | succ fuel ih =>
    intro s
    cases s with
    | nil => simp [chunksOfGo]
    | cons d rest =>
      rw [chunksOfGo]
      · rw [List.flatten_cons, ih]
        exact List.take_append_drop size (d :: rest)
      · simp

theorem pyWordsGo_ne_nil : ∀ (s acc : Str), (acc ≠ [] ∨ HasSolid s) →
    pyWordsGo s acc ≠ [] := by
  intro s
  induction s with
  | nil =>
    intro acc h
    rcases h with h | h
    · rw [pyWordsGo, if_neg h]; simp
    · obtain ⟨c, hc, -⟩ := h; simp at hc
  | cons c rest ih =>
    intro acc h
    rw [pyWordsGo]
    by_cases hws : isWs c = true
    · rw [if_pos hws]
      by_cases hacc : acc = []
      · rw [if_pos hacc]
        apply ih
        right
        rcases h with h | h
        · exact absurd hacc h
        · obtain ⟨x, hx, hxw⟩ := h
          rcases List.mem_cons.1 hx with rfl | hx'
          · rw [hws] at hxw; cases hxw
          · exact ⟨x, hx', hxw⟩
      · rw [if_neg hacc]; simp
    · rw [if_neg hws]
      apply ih
      left
      simp

theorem pyWords_ne_nil {s : Str} (h : HasSolid s) : pyWords s ≠ [] :=
  pyWordsGo_ne_nil s [] (Or.inr h)

theorem longSentStep_solid (cfg : SegCfg) (acc : List Str × Str) (word : Str)
    (hw : word ≠ []) (hnws : NoWs word) : LongSolid (cfg.longSentStep acc word) := by
  have hsolid : HasSolid word := by
    cases word with
    | nil => exact absurd rfl hw
    | cons c rest => exact ⟨c, by simp, hnws c (by simp)⟩
  obtain ⟨pieces, current⟩ := acc
  rw [SegCfg.longSentStep]
  simp only
  split_ifs with h1 h2 h3
  · exact Or.inr hsolid
  · right
    obtain ⟨x, hx, hxw⟩ := hsolid
    exact ⟨x, by simp [hx], hxw⟩
  · left
    obtain ⟨x, hx, hxw⟩ := hsolid
    have hx' : x ∈ (cfg.splitLongWord word).flatten := by
      rw [SegCfg.splitLongWord, chunksOf, chunksOfGo_flatten]
      exact hx
    obtain ⟨p, hp, hxp⟩ := List.mem_flatten.1 hx'
    exact ⟨p, by simp [hp], x, hxp, hxw⟩
  · right
    exact hsolid

theorem splitLongSentence_solid (cfg : SegCfg) (s : Str) (h : HasSolid s) :
    ∃ p ∈ cfg.splitLongSentence s, HasSolid p := by
  rw [SegCfg.splitLongSentence]
  rcases List.eq_nil_or_concat (pyWords s) with hnil | ⟨l, w, hlw⟩
  · exact absurd hnil (pyWords_ne_nil h)
  · have hw := pyWords_words s w (by rw [hlw]; simp)
    rw [hlw]
    rw [show l.concat w = l ++ [w] from List.concat_eq_append l w]
    rw [List.foldl_append]
    simp only [List.foldl]
    have hsolid := longSentStep_solid cfg (l.foldl cfg.longSentStep ([], [])) w hw.1 hw.2
    set acc := cfg.longSentStep (l.foldl cfg.longSentStep ([], [])) w with hacc
    obtain ⟨pieces, current⟩ := acc
    rcases hsolid with ⟨p, hp, hps⟩ | hcur
    · simp only at hp ⊢
      split
      · exact ⟨p, hp, hps⟩
      · exact ⟨p, by simp [hp], hps⟩
    · simp only at hcur ⊢
      split
      · rename_i hc0
        obtain ⟨x, hx, -⟩ := hcur
        rw [hc0] at hx
        simp at hx
      · exact ⟨current, by simp, hcur⟩

/-! ## The sentence and paragraph loops -/

theorem foldl_appendPiece_inv (cfg : SegCfg) (pieces : List Str) (st : SegState)
    (hst : StInv cfg st) (hp : ∀ p ∈ pieces, PieceOK cfg p) :
    StInv cfg (pieces.foldl cfg.appendPiece st) :=
  foldl_preserve cfg.appendPiece
    (fun b a hb ha => appendPiece_inv cfg b a hb ha) pieces st hst hp

theorem foldl_appendPiece_segments (cfg : SegCfg) :
    ∀ (pieces : List Str) (st : SegState),
      ∃ l, (pieces.foldl cfg.appendPiece st).segments = st.segments ++ l := by
  intro pieces
  induction pieces with
  | nil => intro st; exact ⟨[], by simp⟩
  | cons p rest ih =>
    intro st
    obtain ⟨l1, h1⟩ := appendPiece_segments cfg st p
    obtain ⟨l2, h2⟩ := ih (cfg.appendPiece st p)
    exact ⟨l1 ++ l2, by rw [List.foldl_cons, h2, h1, List.append_assoc]⟩

theorem foldl_appendPiece_keeps (cfg : SegCfg) :
    ∀ (pieces : List Str) (st : SegState), st.current ≠ [] →
      (pieces.foldl cfg.appendPiece st).current ≠ [] := by
  intro pieces
  induction pieces with
  | nil => intro st h; exact h
  | cons p rest ih =>
    intro st h
    exact ih (cfg.appendPiece st p) (appendPiece_keeps cfg st p h)

theorem foldl_appendPiece_current (cfg : SegCfg) :
    ∀ (pieces : List Str) (st : SegState), (∃ p ∈ pieces, pyStrip p ≠ []) →
      (pieces.foldl cfg.appendPiece st).current ≠ [] := by
  intro pieces
  induction pieces with
  | nil => intro st h; obtain ⟨p, hp, -⟩ := h; simp at hp
  | cons q rest ih =>
    intro st h
    obtain ⟨p, hp, hps⟩ := h
    rcases List.mem_cons.1 hp with rfl | hp'
    · exact foldl_appendPiece_keeps cfg rest _ (appendPiece_establish cfg st p hps)
    · exact ih (cfg.appendPiece st q) ⟨p, hp', hps⟩

theorem processSentence_inv (cfg : SegCfg) (st : SegState) (sentence : Str)
    (hst : StInv cfg st) : StInv cfg (cfg.processSentence st sentence) := by
  rw [SegCfg.processSentence]
  split
  · exact foldl_appendPiece_inv cfg _ st hst (splitLongSentence_ok cfg sentence)
  · exact appendPiece_inv cfg st sentence hst (Or.inl (by omega))

theorem processSentence_segments (cfg : SegCfg) (st : SegState) (sentence : Str) :
    ∃ l, (cfg.processSentence st sentence).segments = st.segments ++ l := by
  rw [SegCfg.processSentence]
  split
  · exact foldl_appendPiece_segments cfg _ st
  · exact appendPiece_segments cfg st sentence

theorem processSentence_productive (cfg : SegCfg) (st : SegState) (sentence : Str)
    (hst : StInv cfg st) (h : Productive st) :
    Productive (cfg.processSentence st sentence) := by
  rcases h with h | h
  · left
    obtain ⟨l, hl⟩ := processSentence_segments cfg st sentence
    rw [hl]
    intro habs
    rw [List.append_eq_nil] at habs
    exact h habs.1
  · right
    rw [SegCfg.processSentence]
    split
    · exact foldl_appendPiece_keeps cfg _ st h
    · exact appendPiece_keeps cfg st sentence h

theorem processSentence_establish (cfg : SegCfg) (st : SegState) (sentence : Str)
    (hne : sentence ≠ []) (hstr : pyStrip sentence = sentence) :
    Productive (cfg.processSentence st sentence) := by
  right
  rw [SegCfg.processSentence]
  split
  · apply foldl_appendPiece_current
    obtain ⟨p, hp, hps⟩ := splitLongSentence_solid cfg sentence
      (solid_of_pyStrip_ne_nil (by rw [hstr]; exact hne))
    exact ⟨p, hp, pyStrip_ne_nil_of_solid hps⟩
  · exact appendPiece_establish cfg st sentence (by rw [hstr]; exact hne)

theorem processParagraph_inv (cfg : SegCfg) (st : SegState) (p : Str)
    (hst : StInv cfg st) : StInv cfg (cfg.processParagraph st p) := by
  rw [SegCfg.processParagraph]
  have hfold : StInv cfg ((splitSentences p).foldl cfg.processSentence st) :=
    foldl_preserve cfg.processSentence
      (fun b a hb _ => processSentence_inv cfg b a hb) (splitSentences p) st hst
      (fun _ _ => trivial)
  split
  · exact flush_inv cfg _ hfold
  · exact hfold

theorem processParagraph_segments (cfg : SegCfg) (st : SegState) (p : Str) :
    ∃ l, (cfg.processParagraph st p).segments = st.segments ++ l := by
  rw [SegCfg.processParagraph]
  have hfold : ∀ (sents : List Str) (st0 : SegState),
      ∃ l, (sents.foldl cfg.processSentence st0).segments = st0.segments ++ l := by
    intro sents
    induction sents with
    | nil => intro st0; exact ⟨[], by simp⟩
    | cons a rest ih =>
      intro st0
      obtain ⟨l1, h1⟩ := processSentence_segments cfg st0 a
      obtain ⟨l2, h2⟩ := ih (cfg.processSentence st0 a)
      exact ⟨l1 ++ l2, by rw [List.foldl_cons, h2, h1, List.append_assoc]⟩
  obtain ⟨l1, h1⟩ := hfold (splitSentences p) st
  split
  · obtain ⟨l2, h2⟩ := flush_segments cfg ((splitSentences p).foldl cfg.processSentence st)
    exact ⟨l1 ++ l2, by rw [h2, h1, List.append_assoc]⟩
  · exact ⟨l1, h1⟩

theorem processParagraph_productive (cfg : SegCfg) (st : SegState) (p : Str)
    (hst : StInv cfg st) (h : Productive st) :
    Productive (cfg.processParagraph st p) := by
  rw [SegCfg.processParagraph]
  have hfold : StInv cfg ((splitSentences p).foldl cfg.processSentence st) ∧
      Productive ((splitSentences p).foldl cfg.processSentence st) := by
    refine foldl_preserve (P := fun st0 => StInv cfg st0 ∧ Productive st0)
      (Q := fun _ => True) cfg.processSentence ?_ (splitSentences p) st ⟨hst, h⟩
      (fun _ _ => trivial)
    rintro b a ⟨hb1, hb2⟩ -
    exact ⟨processSentence_inv cfg b a hb1, processSentence_productive cfg b a hb1 hb2⟩
  split
  · exact flush_productive cfg _ hfold.1 hfold.2
  · exact hfold.2

theorem processParagraph_establish (cfg : SegCfg) (st : SegState) (p : Str)
    (hst : StInv cfg st) (hsolid : HasSolid p) :
    Productive (cfg.processParagraph st p) := by
  rw [SegCfg.processParagraph]
  have hne := splitSentences_ne_nil hsolid
  rcases List.eq_nil_or_concat (splitSentences p) with hnil | ⟨l, a, hla⟩
  · exact absurd hnil hne
  · have ha := splitSentences_mem p a (by rw [hla]; simp)
    have hprod : Productive ((splitSentences p).foldl cfg.processSentence st) := by
      rw [hla, show l.concat a = l ++ [a] from List.concat_eq_append l a,
        List.foldl_append]
      simp only [List.foldl]
      exact processSentence_establish cfg _ a ha.1 ha.2
    have hinv : StInv cfg ((splitSentences p).foldl cfg.processSentence st) :=
      foldl_preserve cfg.processSentence
        (fun b x hb _ => processSentence_inv cfg b x hb) (splitSentences p) st hst
        (fun _ _ => trivial)
    split
    · exact flush_productive cfg _ hinv hprod
    · exact hprod

/-! ## `_split_paragraphs` character accounting -/

theorem paraGo_subset : ∀ (s acc : Str) (pend : Nat),
    ∀ p ∈ paraGo s acc pend, ∀ c ∈ p, c ∈ s ∨ c ∈ acc ∨ c = '\n' := by
  intro s
  induction s with
  | nil =>
    intro acc pend p hp c hc
    rw [paraGo] at hp
    split at hp
    · rcases List.mem_cons.1 hp with rfl | hp'
      · right; left; simpa using hc
      · simp at hp'; subst hp'; simp at hc
    · simp only [List.mem_singleton] at hp
      subst hp
      simp only [List.mem_reverse, List.mem_append, List.mem_replicate] at hc
      rcases hc with ⟨-, rfl⟩ | hc'
      · right; right; rfl
      · right; left; exact hc'
  | cons d rest ih =>
    intro acc pend p hp c hc
    rw [paraGo] at hp
    by_cases hd : d = '\n'
    · rw [if_pos hd] at hp
      rcases ih acc (pend + 1) p hp c hc with h | h | h
      · left; simp [h]
      · right; left; exact h
      · right; right; exact h
    · rw [if_neg hd] at hp
      by_cases hpend : 2 ≤ pend
      · rw [if_pos hpend] at hp
        rcases List.mem_cons.1 hp with rfl | hp'
        · right; left; simpa using hc
        · rcases ih [d] 0 p hp' c hc with h | h | h
          · left; simp [h]
          · simp at h; subst h; left; simp
          · right; right; exact h
      · rw [if_neg hpend] at hp
        rcases ih _ 0 p hp c hc with h | h | h
        · left; simp [h]
        · simp only [List.mem_cons, List.mem_append, List.mem_replicate] at h
          rcases h with rfl | ⟨-, rfl⟩ | h'
          · left; simp
          · right; right; rfl
          · right; left; exact h'
        · right; right; exact h

theorem paraGo_covers : ∀ (s acc : Str) (pend : Nat) (c : Char),
    (c ∈ s ∨ c ∈ acc) → c ≠ '\n' → ∃ p ∈ paraGo s acc pend, c ∈ p := by
  intro s
  induction s with
  | nil =>
    intro acc pend c hc hnl
    rcases hc with hc | hc
    · simp at hc
    · rw [paraGo]
      split
      · exact ⟨acc.reverse, by simp, by simpa using hc⟩
      · refine ⟨(List.replicate pend '\n' ++ acc).reverse, by simp, ?_⟩
        simp only [List.mem_reverse, List.mem_append]
        right
        exact hc
  | cons d rest ih =>
    intro acc pend c hc hnl
    rw [paraGo]
    by_cases hd : d = '\n'
    · rw [if_pos hd]
      apply ih
      · rcases hc with hc | hc
        · rcases List.mem_cons.1 hc with rfl | hc'
          · exact absurd hd hnl
          · exact Or.inl hc'
        · exact Or.inr hc
      · exact hnl
    · rw [if_neg hd]
      by_cases hpend : 2 ≤ pend
      · rw [if_pos hpend]
        rcases hc with hc | hc
        · rcases List.mem_cons.1 hc with rfl | hc'
          · obtain ⟨p, hp, hcp⟩ := ih [c] 0 c (Or.inr (by simp)) hnl
            exact ⟨p, by simp [hp], hcp⟩
          · obtain ⟨p, hp, hcp⟩ := ih [d] 0 c (Or.inl hc') hnl
            exact ⟨p, by simp [hp], hcp⟩
        · exact ⟨acc.reverse, by simp, by simpa using hc⟩
      · rw [if_neg hpend]
        apply ih
        · rcases hc with hc | hc
          · rcases List.mem_cons.1 hc with rfl | hc'
            · right; simp
            · exact Or.inl hc'
          · right
            simp [hc]
        · exact hnl

theorem collapse_keeps {s : Str} {c : Char} (hc : c ∈ s) (hw : isWs c = false) :
    c ∈ collapseWs s := by
  induction s with
  | nil => simp at hc
  | cons d rest ih =>
    cases rest with
    | nil =>
      simp only [List.mem_singleton] at hc
      subst hc
      rw [collapseWs, if_neg (by simp [hw])]
      simp
    | cons e rest2 =>
      rw [collapseWs]
      rcases List.mem_cons.1 hc with rfl | hc'
      · rw [if_neg (by simp [hw])]
        simp [hw]
      · have hmem := ih hc'
        split
        · exact hmem
        · exact List.mem_cons_of_mem _ hmem

theorem collapse_subset {s : Str} {c : Char} (hc : c ∈ collapseWs s) :
    c ∈ s ∨ c = ' ' := by
  induction s with
  | nil => simp [collapseWs] at hc
  | cons d rest ih =>
    cases rest with
    | nil =>
      rw [collapseWs] at hc
      split at hc
      · simp at hc; right; exact hc
      · simp at hc; left; simp [hc]
    | cons e rest2 =>
      rw [collapseWs] at hc
      split at hc
      · rcases ih hc with h | h
        · left; exact List.mem_cons_of_mem _ h
        · right; exact h
      · rcases List.mem_cons.1 hc with rfl | hc'
        · split
          · right; rfl
          · left; simp
        · rcases ih hc' with h | h
          · left; exact List.mem_cons_of_mem _ h
          · right; exact h

theorem splitParagraphs_solid (text : Str) :
    ∀ p ∈ splitParagraphs text, p ≠ [] ∧ HasSolid p := by
  intro p hp
  rw [splitParagraphs, List.mem_filterMap] at hp
  obtain ⟨x, hx, hq⟩ := hp
  by_cases hqe : collapseWs (pyStrip x) = []
  · rw [if_pos hqe] at hq; cases hq
  · rw [if_neg hqe] at hq
    injection hq with hq
    subst hq
    refine ⟨hqe, ?_⟩
    have hps : pyStrip x ≠ [] := by
      intro habs
      rw [habs] at hqe
      exact hqe rfl
    cases hh : pyStrip x with
    | nil => exact absurd hh hps
    | cons hd tl =>
      have hhd : isWs hd = false := (pyStrip_strippedStr x).1 hd (by rw [hh]; rfl)
      exact ⟨hd, collapse_keeps (show hd ∈ hd :: tl by simp) hhd, hhd⟩

theorem splitParagraphs_covers (text : Str) (c : Char) (hc : c ∈ text)
    (hw : isWs c = false) : splitParagraphs text ≠ [] := by
  have hnl : c ≠ '\n' := by
    intro habs
    subst habs
    simp [isWs] at hw
  obtain ⟨p, hp, hcp⟩ := paraGo_covers text [] 0 c (Or.inl hc) hnl
  have hq : collapseWs (pyStrip p) ≠ [] := by
    have : c ∈ collapseWs (pyStrip p) := collapse_keeps (mem_pyStrip_of_not_ws hcp hw) hw
    intro habs
    rw [habs] at this
    simp at this
  intro habs
  rw [splitParagraphs, List.filterMap_eq_nil] at habs
  have := habs p hp
  rw [if_neg hq] at this
  cases this

theorem splitParagraphs_allws (text : Str) (h : ∀ c ∈ text, isWs c = true) :
    splitParagraphs text = [] := by
  rw [splitParagraphs, List.filterMap_eq_nil]
  intro p hp
  have hws : ∀ c ∈ p, isWs c = true := by
    intro c hc
    rcases paraGo_subset text [] 0 p hp c hc with h' | h' | h'
    · exact h c h'
    · simp at h'
    · subst h'; rfl
  rw [if_pos]
  rw [show pyStrip p = [] from (pyStrip_eq_nil_iff p).2 hws]
  rfl

/-! ## Master invariant of `segment` -/

theorem segment_inv (cfg : SegCfg) (text : Str) :
    ∀ sg ∈ cfg.segment text, SegEmitOK cfg sg.text ∧ SizeOKSeg cfg sg.text := by
  intro sg hsg
  rw [SegCfg.segment] at hsg
  split at hsg
  · simp at hsg
  · have hfold : StInv cfg ((splitParagraphs text).foldl cfg.processParagraph ⟨[], [], 0⟩) :=
      foldl_preserve cfg.processParagraph
        (fun b a hb _ => processParagraph_inv cfg b a hb) (splitParagraphs text)
        ⟨[], [], 0⟩ ⟨Or.inl rfl, by simp⟩ (fun _ _ => trivial)
    simp only at hsg
    split at hsg
    · exact (flush_inv cfg _ hfold).2 sg hsg
    · exact hfold.2 sg hsg

theorem emitBound_le_hardMax (cfg : SegCfg) (hv : cfg.Valid) :
    emitBound cfg ≤ cfg.hardMax := by
  obtain ⟨h1, h2, h3⟩ := hv
  rw [emitBound, SegCfg.hardLimit]
  by_cases hp : cfg.ensure_terminal_punctuation = true
  · have hm2 : 2 ≤ cfg.max_chars := h3 hp
    have := hardMax_ge cfg
    rw [if_pos hp, if_pos hp]
    omega
  · rw [if_neg hp, if_neg hp]
    simp

/-- C2, corrected.  With a validly constructed segmenter, every emitted
segment either fits within the effective hard maximum (`_hard_max`), or is
a single whitespace-free word longer than the hard limit, emitted whole
(with at most the appended terminal dot): an overlong word that starts an
accumulation in `_split_long_sentence` is never hard-sliced. -/
theorem claim_C2_segment_bounds :
    ∀ (cfg : SegCfg) (text : Str), cfg.Valid →
      ∀ sg ∈ cfg.segment text,
        sg.text.length ≤ cfg.hardMax ∨ OverlongWordSeg cfg sg.text := by
  intro cfg text hv sg hsg
  rcases (segment_inv cfg text sg hsg).2 with h | h
  · exact Or.inl (le_trans h (emitBound_le_hardMax cfg hv))
  · exact Or.inr h

/-- C2 as frozen is false: with `max_chars = 5`, `min_chars = 0`, default
`hard_max_chars` (so the effective hard maximum is 6), segmenting a single
10-character word yields one segment of length 11. -/
theorem claim_C2_counterexample :
    (SegCfg.Valid ⟨5, 0, none, true⟩) ∧
      (SegCfg.segment ⟨5, 0, none, true⟩ (List.replicate 10 'a')
        = [⟨0, List.replicate 10 'a' ++ ['.']⟩]) ∧
      SegCfg.hardMax ⟨5, 0, none, true⟩ < (List.replicate 10 'a' ++ ['.']).length := by
  refine ⟨by decide, by decide, by decide⟩

theorem claim_C2_segment_bounds_witness :
    (⟨0, "Hello world.".toList⟩ : Segment).text.length ≤ SegCfg.hardMax ⟨50, 10, some 60, true⟩
      ∨ OverlongWordSeg ⟨50, 10, some 60, true⟩ (⟨0, "Hello world.".toList⟩ : Segment).text :=
  claim_C2_segment_bounds ⟨50, 10, some 60, true⟩ "Hello world.".toList (by decide)
    ⟨0, "Hello world.".toList⟩ (by decide)

/-- C7: segmenting returns the empty sequence exactly when the text has no
non-whitespace character (in particular, non-empty non-blank text always
produces at least one segment, and `""` or whitespace-only text produces
none). -/
theorem claim_C7_segment_totality :
    ∀ (cfg : SegCfg) (text : Str),
      cfg.segment text = [] ↔ ∀ c ∈ text, isWs c = true := by
  intro cfg text
  constructor
  · intro h c hc
    by_contra hws
    have hws' : isWs c = false := by simpa using hws
    have hpne := splitParagraphs_covers text c hc hws'
    have hsolid := splitParagraphs_solid text
    rcases List.eq_nil_or_concat (splitParagraphs text) with hnil | ⟨l, p, hlp⟩
    · exact hpne hnil
    · have hp := hsolid p (by rw [hlp]; simp)
      have hinv : StInv cfg (l.foldl cfg.processParagraph ⟨[], [], 0⟩) :=
        foldl_preserve cfg.processParagraph
          (fun b a hb _ => processParagraph_inv cfg b a hb) l
          ⟨[], [], 0⟩ ⟨Or.inl rfl, by simp⟩ (fun _ _ => trivial)
      have hprod : Productive ((splitParagraphs text).foldl cfg.processParagraph ⟨[], [], 0⟩) := by
        rw [hlp, show l.concat p = l ++ [p] from List.concat_eq_append l p, List.foldl_append]
        simp only [List.foldl]
        exact processParagraph_establish cfg _ p hinv hp.2
      have hinv2 : StInv cfg ((splitParagraphs text).foldl cfg.processParagraph ⟨[], [], 0⟩) :=
        foldl_preserve cfg.processParagraph
          (fun b a hb _ => processParagraph_inv cfg b a hb) (splitParagraphs text)
          ⟨[], [], 0⟩ ⟨Or.inl rfl, by simp⟩ (fun _ _ => trivial)
      rw [SegCfg.segment] at h
      split at h
      · rename_i hte
        subst hte
        simp at hc
      · simp only at h
        split at h
        · rcases flush_productive cfg _ hinv2 hprod with hseg | hcur
          · exact hseg h
          · rw [flush_current] at hcur
            exact hcur rfl
        · rename_i hcur
          rcases hprod with hseg | hcur'
          · exact hseg h
          · exact hcur hcur'
  · intro h
    rw [SegCfg.segment]
    split
    · rfl
    · rw [splitParagraphs_allws text h]
      simp

/-- C8: with punctuation enforcement on, every returned segment is stripped
and ends terminally punctuated (one of `.!?;:` after discarding trailing
closers), and `flush` appends a literal dot exactly when the stripped
accumulator is not already so terminated. -/
theorem claim_C8_terminal_punctuation :
    ∀ (cfg : SegCfg), cfg.ensure_terminal_punctuation = true →
      (∀ (text : Str), ∀ sg ∈ cfg.segment text,
        StrippedStr sg.text ∧ endsTerminal sg.text = true)
      ∧ (∀ st : SegState, pyStrip st.current ≠ [] →
          (cfg.flush st).segments = st.segments ++
            [⟨st.index, if endsTerminal (pyStrip st.current) = true
                        then pyStrip st.current
                        else pyStrip st.current ++ ['.']⟩]) := by
  intro cfg hp
  constructor
  · intro text sg hsg
    obtain ⟨-, hstr, hterm⟩ := (segment_inv cfg text sg hsg).1
    exact ⟨hstr, hterm hp⟩
  · intro st hne
    rw [SegCfg.flush]
    simp only [ensureTerminalSeg, hp, if_true]
    split
    · rename_i hco
      exact absurd hco hne
    · split <;> rfl

theorem claim_C8_terminal_punctuation_witness :
    StrippedStr (Segment.text ⟨0, 'H' :: 'i' :: ['.']⟩)
      ∧ endsTerminal (Segment.text ⟨0, 'H' :: 'i' :: ['.']⟩) = true :=
  (claim_C8_terminal_punctuation ⟨50, 10, none, true⟩ rfl).1
    ('H' :: ['i']) ⟨0, 'H' :: 'i' :: ['.']⟩ (by decide)
